import Mathlib

/-!
# A verification model of the `arrangeit` group-arrangement engine

This file gives a shallow embedding, in Lean, of the core of the `arrangeit`
repository (package `main`): the data model (`Item`, `Rule`, `Group`,
`State`), the scoring engine (`CalculateScore`, `CalculateCurrentScore`,
`CalculateMaxPotentialScore`), the canonicalisation digests, and the
hill-climbing search driver (`getRandomState` / `getBestNextStateFrom` /
`run`), together with theorems about the testable properties of the design.

Modelling conventions, used consistently below:

* Go `float64` values (scores, coordinates, distributions) are modelled as
  exact rationals `ℚ`; Go `int` values (weights, sizes) as `ℤ`.
* Item `ID` strings are modelled as their byte sequences `List ℕ`, because
  the digests hash the raw bytes and Go string `<` is bytewise
  lexicographic order.
* The `Tags` map is modelled as a total function `String → String`
  (a missing key yields `""` in Go, matching the code's `""` checks).
* `strconv.ParseFloat`-based coordinate parsing (`runner.parsePoint`) is
  kept abstract: every definition that parses takes a parameter
  `pp : String → Option Point`.  No claim below depends on the internals
  of float parsing, only on parse success/failure and on parsing being a
  function of the tag value.
* `panic` (for the unimplemented `RuleTypeRelationship`) is modelled by
  `Option`: a score of `none` means the Go program panics.
* The possibly endless inner loops of the Go code (the round-robin filler
  and the main search loop) take a fuel argument; running out of fuel
  models divergence/the run not having finished.
* The repository contains two revisions of the engine.  The definitions
  below follow the hill-climbing revision (`getRandomState` +
  `getBestNextStateFrom`, sorted `Group.digest`, `count²` Sameness
  scoring).  Where the other revision (`arrangeit.go`: unsorted
  `Group.digest`, `count-1` Sameness scoring) differs in a way a claim
  depends on, the divergent definition is embedded alongside with an
  explicit name (`groupDigestUnsorted`, `samenessGroupScoreV1`).
-/

unseal List.merge List.mergeSort Rat.add Rat.mul Rat.inv Rat.sub

set_option maxRecDepth 100000

namespace Arrangeit

/-- A 2-D coordinate (Go `point`: two `float64`s), modelled over `ℚ`. -/
abbrev Point : Type := ℚ × ℚ

/-- Go `Item`: a unique `ID` (string, modelled as its byte sequence) plus
the `Tags` map (Go map lookup of a missing key yields `""`). -/
structure Item where
  id : List ℕ
  tags : String → String

/-- Go `RuleType`. -/
inductive RuleType where
  | Sameness
  | Relationship
  | Nearness
deriving DecidableEq

/-- Go `Rule`: tag name, rule type and signed integer weight. -/
structure Rule where
  tagName : String
  type : RuleType
  weight : ℤ

/-- Go `Group`: a capacity template (`Name`, `MinSize`, `MaxSize`, both Go
`int`s, hence `ℤ`) plus the list of items placed in it. -/
structure Group where
  name : String
  minSize : ℤ
  maxSize : ℤ
  items : List Item

/-- Go `State`: groups (with their current items), the items not yet
placed, and the cached score (a `float64`, modelled as `ℚ`). -/
structure State where
  groups : List Group
  itemsNotInGroups : List Item
  score : ℚ

/-- A state is terminal when every item is placed (`State.IsTerminal`). -/
def State.IsTerminal (s : State) : Bool :=
  s.itemsNotInGroups.isEmpty

/-! ## FNV-1 64-bit hashing (`hash/fnv`, `fnv.New64`) -/

/-- The FNV-1 64-bit prime. -/
def fnvPrime : ℕ := 1099511628211

/-- The FNV-1 64-bit offset basis. -/
def fnvOffset : ℕ := 14695981039346656037

/-- One byte step of FNV-1 (`New64`, not `New64a`): multiply by the prime
(mod `2^64`), then xor the byte in. -/
def fnvStep (h b : ℕ) : ℕ :=
  (h * fnvPrime % 2 ^ 64) ^^^ b

/-- Hash a byte sequence with FNV-1 64.  Successive `Write` calls in Go
hash the concatenation of the written byte slices. -/
def fnvHash (bytes : List ℕ) : ℕ :=
  bytes.foldl fnvStep fnvOffset

/-- Bytewise lexicographic `≤` on byte sequences; Go string comparison
(`itemsSorted[i].ID < itemsSorted[j].ID`) is the strict version of this. -/
def bytesLe : List ℕ → List ℕ → Bool
  | [], _ => true
  | _ :: _, [] => false
  | a :: as, b :: bs => if a < b then true else if b < a then false else bytesLe as bs

/-- `Group.digest` of the hill-climbing revision: sort the items by `ID`
and hash the concatenated `ID` bytes with FNV-1 64. -/
def Group.digest (g : Group) : ℕ :=
  let itemsSorted := g.items.mergeSort (fun i j => bytesLe i.id j.id)
  fnvHash (itemsSorted.map Item.id).flatten

/-- `Group.digest` of the `arrangeit.go` revision: the same hash but with
the items in slice order, not sorted by `ID`. -/
def groupDigestUnsorted (g : Group) : ℕ :=
  fnvHash (g.items.map Item.id).flatten

/-- `binary.PutUvarint`'s byte sequence for `x` (little-endian base-128
with continuation bits).  The fuel is immaterial for `x < 2^64` when at
least 10 is supplied, which is how it is always called below. -/
def uvarintBytes : ℕ → ℕ → List ℕ
  | 0, x => [x % 128]
  | fuel + 1, x => if x < 128 then [x] else (x % 128 + 128) :: uvarintBytes fuel (x / 128)

/-- `binary.PutUvarint(buf, d)` as used by `State.digest`: the varint
bytes overwrite the front of `buf`; the remaining (stale) bytes of the
10-byte buffer are kept, because the Go code writes the whole buffer to
the hash, not just the varint prefix. -/
def putUvarint (buf : List ℕ) (x : ℕ) : List ℕ :=
  let vb := uvarintBytes 10 x
  vb ++ buf.drop vb.length

/-- `State.digest` parameterised by the per-group digest: sort the group
digests ascending, then feed each one's (whole, partly stale) uvarint
buffer into FNV-1 64. -/
def stateDigestWith (gd : Group → ℕ) (s : State) : ℕ :=
  let digests := (s.groups.map gd).mergeSort (fun a b => decide (a ≤ b))
  (digests.foldl
    (fun hb d =>
      let buf := putUvarint hb.2 d
      (buf.foldl fnvStep hb.1, buf))
    (fnvOffset, List.replicate 10 0)).1

/-- `State.digest` of the hill-climbing revision. -/
def State.digest (s : State) : ℕ :=
  stateDigestWith Group.digest s

/-- `State.digest` of the `arrangeit.go` revision (unsorted group digest). -/
def stateDigestUnsorted (s : State) : ℕ :=
  stateDigestWith groupDigestUnsorted s

/-! ## Geometry helpers -/

/-- `getDistribution`: the bounding-box width + height of a point set,
`0` for the empty set. -/
def getDistribution : List Point → ℚ
  | [] => 0
  | p :: rest =>
    (rest.foldl (fun a q => max a q.1) p.1 - rest.foldl (fun a q => min a q.1) p.1) +
      (rest.foldl (fun a q => max a q.2) p.2 - rest.foldl (fun a q => min a q.2) p.2)

/-- The state of `getGroupDistribution`'s fused loop:
`(numPoints, maxX, minX, maxY, minY)`. -/
def groupDistStep (st : ℕ × ℚ × ℚ × ℚ × ℚ) (p : Point) : ℕ × ℚ × ℚ × ℚ × ℚ :=
  match st with
  | (n, mxX, mnX, mxY, mnY) =>
    if 0 < n then (n + 1, max mxX p.1, min mnX p.1, max mxY p.2, min mnY p.2)
    else (1, p.1, p.1, p.2, p.2)

/-- `getGroupDistribution` (hill-climbing revision): a single fused pass
over the group's items, returning the distribution and the number of items
that have a parsed point for `tagName`.  `near it tag` plays the role of
`item.nearnessTags[tagName]`. -/
def getGroupDistribution (near : Item → String → Option Point) (g : Group)
    (tagName : String) : ℚ × ℕ :=
  let pts := g.items.filterMap (fun it => near it tagName)
  let st := pts.foldl groupDistStep (0, 0, 0, 0, 0)
  (if 0 < st.1 then st.2.1 - st.2.2.1 + (st.2.2.2.1 - st.2.2.2.2) else 0, st.1)

/-- `runner.maxDistributionForTag` (the memoisation cache is transparent:
the cached value is a pure function of the runner's items and the tag):
parse every item's value for the tag, skipping empty and unparsable
values, and take the distribution of all resulting points. -/
def maxDistributionForTag (pp : String → Option Point) (items : List Item)
    (tagName : String) : ℚ :=
  getDistribution (items.filterMap fun it =>
    if it.tags tagName = "" then none else pp (it.tags tagName))

/-- `runner.populateNearnessTagPoints`, per item and tag: the parsed point
is present exactly when some `Nearness` rule with non-zero weight targets
the tag and the item's (non-empty) value parses. -/
def populateNearnessTagPoints (pp : String → Option Point) (rules : List Rule)
    (it : Item) (tagName : String) : Option Point :=
  if rules.any (fun r =>
      decide (r.type = RuleType.Nearness) && !decide (r.weight = 0) &&
        decide (r.tagName = tagName)) then
    (if it.tags tagName = "" then none else pp (it.tags tagName))
  else none

/-! ## The score engine (hill-climbing revision: `count²` Sameness) -/

/-- Is there a `Relationship` rule with non-zero weight?  Evaluating the
score of any state through the rules loop panics in Go exactly when there
is (`panic("RuleTypeRelationship not yet implemented")`). -/
def hasLiveRelationship (rules : List Rule) : Bool :=
  rules.any fun r => decide (r.type = RuleType.Relationship) && !decide (r.weight = 0)

/-- The non-empty tag values of a group's items for a tag, in item order
(`val == ""` entries are skipped by the occurrence counter). -/
def groupTagValues (g : Group) (tagName : String) : List String :=
  g.items.filterMap fun it =>
    if it.tags tagName = "" then none else some (it.tags tagName)

/-- One group's Sameness contribution in the hill-climbing revision:
`weight * count²` for each distinct non-empty tag value
(`score += float64(rule.Weight) * math.Pow(float64(count), 2)`). -/
def samenessGroupScore (rule : Rule) (g : Group) : ℚ :=
  ∑ v ∈ (groupTagValues g rule.tagName).toFinset,
    (rule.weight : ℚ) * ((groupTagValues g rule.tagName).count v : ℚ) ^ 2

/-- One group's Sameness contribution in the `arrangeit.go` revision:
`weight * (count - 1)` for each distinct non-empty tag value. -/
def samenessGroupScoreV1 (rule : Rule) (g : Group) : ℚ :=
  ∑ v ∈ (groupTagValues g rule.tagName).toFinset,
    ((rule.weight * (((groupTagValues g rule.tagName).count v : ℤ) - 1) : ℤ) : ℚ)

/-- One group's Nearness contribution:
`weight * numPoints * (1 - distribution/maxDistribution)`. -/
def nearnessGroupScore (pp : String → Option Point) (items : List Item)
    (near : Item → String → Option Point) (rule : Rule) (g : Group) : ℚ :=
  let dn := getGroupDistribution near g rule.tagName
  (rule.weight : ℚ) * (dn.2 : ℚ) * (1 - dn.1 / maxDistributionForTag pp items rule.tagName)

/-- One rule's total contribution to `CalculateCurrentScore` (the
`Relationship` case is unreachable under the `hasLiveRelationship` guard
and is given the junk value `0`). -/
def ruleCurrentScore (pp : String → Option Point) (items : List Item)
    (near : Item → String → Option Point) (s : State) (rule : Rule) : ℚ :=
  match rule.type with
  | RuleType.Sameness => (s.groups.map (samenessGroupScore rule)).sum
  | RuleType.Relationship => 0
  | RuleType.Nearness => (s.groups.map (nearnessGroupScore pp items near rule)).sum

/-- `runner.CalculateCurrentScore`: sum the contributions of every rule
with non-zero weight; `none` models the Go panic on a live `Relationship`
rule. -/
def CalculateCurrentScore (pp : String → Option Point) (items : List Item)
    (near : Item → String → Option Point) (rules : List Rule) (s : State) : Option ℚ :=
  if hasLiveRelationship rules then none
  else some (((rules.filter fun r => !decide (r.weight = 0)).map
    (ruleCurrentScore pp items near s)).sum)

/-- The greedy "fill the least-distributed open slots first" loop of
`CalculateMaxPotentialScore`'s Nearness case.  Entries are
`(distribution, slotsLeft)` pairs; `p` is the remaining count of unplaced
items that have a point. -/
def greedyFill (w : ℤ) (maxDist : ℚ) : ℤ → List (ℚ × ℤ) → ℚ
  | _, [] => 0
  | p, dc :: rest =>
    if 0 < p then
      let numToFill := if p ≥ dc.2 then dc.2 else p
      (w : ℚ) * (numToFill : ℚ) * (1 - dc.1 / maxDist) +
        greedyFill w maxDist (p - numToFill) rest
    else 0

/-- The open slots considered by the Nearness heuristic:
`(distribution, slotsLeft)` for every group with `slotsLeft > 0`, in group
order. -/
def groupsToFill (near : Item → String → Option Point) (s : State)
    (tagName : String) : List (ℚ × ℤ) :=
  s.groups.filterMap fun g =>
    let slotsLeft := g.maxSize - (g.items.length : ℤ)
    if 0 < slotsLeft then some ((getGroupDistribution near g tagName).1, slotsLeft)
    else none

/-- One rule's additional optimistic bonus in
`runner.CalculateMaxPotentialScore` (beyond the current score). -/
def ruleBonus (pp : String → Option Point) (items : List Item)
    (near : Item → String → Option Point) (s : State) (rule : Rule) : ℚ :=
  match rule.type with
  | RuleType.Sameness =>
    if rule.weight < 0 then 0
    else ((rule.weight * (s.itemsNotInGroups.length : ℤ) : ℤ) : ℚ)
  | RuleType.Relationship => 0
  | RuleType.Nearness =>
    if rule.weight < 0 then 0
    else
      let itemsWithPoints : ℤ :=
        (s.itemsNotInGroups.countP fun it => (near it rule.tagName).isSome : ℕ)
      let sorted := (groupsToFill near s rule.tagName).mergeSort
        (fun a b => decide (a.1 ≤ b.1))
      greedyFill rule.weight (maxDistributionForTag pp items rule.tagName)
        itemsWithPoints sorted

/-- `runner.CalculateMaxPotentialScore`: the current score plus each live
rule's optimistic bonus (`none` models the `Relationship` panic). -/
def CalculateMaxPotentialScore (pp : String → Option Point) (items : List Item)
    (near : Item → String → Option Point) (rules : List Rule) (s : State) : Option ℚ :=
  if hasLiveRelationship rules then none
  else some (((rules.filter fun r => !decide (r.weight = 0)).map
      (ruleCurrentScore pp items near s)).sum +
    ((rules.filter fun r => !decide (r.weight = 0)).map
      (ruleBonus pp items near s)).sum)

/-- The sentinel `-math.MaxFloat64` returned for terminal states violating
a minimum group size, as an exact rational.  The numeral is
`2 ^ 1024 - 2 ^ 971`, the exact value of `math.MaxFloat64` (see
`minScoreQ_eq` below); it is spelled out so that kernel evaluation of the
engine does not have to unfold a 1024-fold power. -/
def minScoreQ : ℚ := -179769313486231570814527423731704356798070567525844996598917476803157260780028538760589558632766878171540458953514382464234321326889464182768467546703537516986049910576551282076245490090389328944075868508455133942304583236903222948165808559332123348274797826204144723168738177180919299881250404026184124858368

/-- The minimum-size screen of `runner.CalculateScore`: `true` iff no
non-empty group is below its `MinSize`. -/
def meetsMinSizes (gs : List Group) : Bool :=
  gs.all fun g => decide (g.items.length = 0) || decide (g.minSize ≤ (g.items.length : ℤ))

/-- `runner.CalculateScore`: heuristic for non-terminal states, the
`-math.MaxFloat64` sentinel for infeasible terminal states, the exact rule
score otherwise. -/
def CalculateScore (pp : String → Option Point) (items : List Item)
    (near : Item → String → Option Point) (rules : List Rule) (s : State) : Option ℚ :=
  if !s.IsTerminal then CalculateMaxPotentialScore pp items near rules s
  else if !meetsMinSizes s.groups then some minScoreQ
  else CalculateCurrentScore pp items near rules s

/-! ## Input validation -/

/-- `runner.validateInput`: `true` iff the summed `MaxSize` capacity can
hold every item. -/
def validateInput (items : List Item) (groups : List Group) : Bool :=
  decide ((items.length : ℤ) ≤ (groups.map Group.maxSize).sum)

/-! ## `getRandomState`: permutation enumeration and scattering -/

/-- One step of the Fisher-Yates application loop
(`nextPerm[i], nextPerm[i+v] = nextPerm[i+v], nextPerm[i]`), as a total
function: out-of-range indices leave the list unchanged (the Go code never
goes out of range for the permutation counters `run` produces; Go would
panic if it did). -/
def swapIdx (l : List Item) (i j : ℕ) : List Item :=
  match l[i]?, l[j]? with
  | some a, some b => (l.set i b).set j a
  | _, _ => l

/-- Apply the permutation counter to the items: for each index `i` with
counter value `v`, swap positions `i` and `i + v`. -/
def applyPerm (pc : List ℕ) (items : List Item) : List Item :=
  pc.enum.foldl (fun l iv => swapIdx l iv.1 (iv.1 + iv.2)) items

/-- The decrement-position walk of `getRandomState`'s counter increment,
on the reversed counter (`j` is `len-i-1`, the per-position bound): find
the rightmost position that may be incremented, zeroing the positions
after it. -/
def incPermRev : List ℕ → ℕ → List ℕ
  | [], _ => []
  | v :: rest, j =>
    if rest.isEmpty || v < j then (v + 1) :: rest
    else 0 :: incPermRev rest (j + 1)

/-- Increment the permutation counter; `none` once every permutation has
been produced (`currentPermutation[0] >= len`).  For an empty counter the
Go code would panic on `currentPermutation[0]`; empty input is outside the
engine's contract and is mapped to `none`. -/
def incPerm (pc : List ℕ) : Option (List ℕ) :=
  let next := (incPermRev pc.reverse 0).reverse
  match next.head? with
  | none => none
  | some h => if h ≥ pc.length then none else some next

/-- The groups as `getRandomState` rebuilds them: the caller's templates
with empty item lists. -/
def freshGroups (groups : List Group) : List Group :=
  groups.map fun g => { g with items := [] }

/-- The first loop of `getRandomState`'s scatter: give each group, in
order, items from the permuted list until it reaches its `MinSize`
(ignoring `MaxSize`, exactly as the code does). -/
def fillMins : List Group → List Item → List Group × List Item
  | [], xs => ([], xs)
  | g :: gs, xs =>
    let need := (g.minSize - (g.items.length : ℤ)).toNat
    let out := fillMins gs (xs.drop need)
    ({ g with items := g.items ++ xs.take need } :: out.1, out.2)

/-- One round-robin pass of `getRandomState`'s second loop: walk the
groups in order, placing the next item into each group whose size is not
exactly `MaxSize`, stopping when the items run out. -/
def rrPass : List Group → List Item → List Group × List Item
  | [], xs => ([], xs)
  | g :: gs, [] => (g :: gs, [])
  | g :: gs, x :: xs =>
    if decide ((g.items.length : ℤ) = g.maxSize) then
      let out := rrPass gs (x :: xs)
      (g :: out.1, out.2)
    else
      let out := rrPass gs xs
      ({ g with items := g.items ++ [x] } :: out.1, out.2)

/-- The outer `for i < len(nextPerm)` loop: repeat round-robin passes
until every item is placed.  Running out of fuel models the infinite loop
the code comment warns about ("this could loop forever if there isn't
enough room for everyone"). -/
def rrLoop : ℕ → List Group → List Item → Option (List Group)
  | 0, _, _ => none
  | _ + 1, gs, [] => some gs
  | fuel + 1, gs, x :: xs =>
    let out := rrPass gs (x :: xs)
    rrLoop fuel out.1 out.2

/-- The whole scatter of `getRandomState`: fresh groups, `MinSize` filling
pass, then round-robin distribution.  `none` models divergence. -/
def distribute (groups : List Group) (xs : List Item) : Option (List Group) :=
  let out := fillMins (freshGroups groups) xs
  rrLoop (out.2.length + 1) out.1 out.2

/-- The outcome of one `getRandomState` call. -/
inductive GenOut where
  /-- A new state was produced (with its updated permutation counter). -/
  | next (s : State) (pc : List ℕ)
  /-- Every permutation has been tried (`getRandomState` returned `nil`). -/
  | exhausted
  /-- Scoring panicked (`RuleTypeRelationship`). -/
  | panic
  /-- The round-robin filler would loop forever. -/
  | diverge

/-- Build the state for a given permutation counter: permute the items,
scatter them, and score the (always terminal) result. -/
def stateFromPerm (pp : String → Option Point) (items : List Item)
    (near : Item → String → Option Point) (rules : List Rule)
    (groups : List Group) (pc : List ℕ) : GenOut :=
  match distribute groups (applyPerm pc items) with
  | none => GenOut.diverge
  | some gs =>
    match CalculateScore pp items near rules { groups := gs, itemsNotInGroups := [], score := 0 } with
    | none => GenOut.panic
    | some q => GenOut.next { groups := gs, itemsNotInGroups := [], score := q } pc

/-- A non-first `getRandomState` call: increment the permutation counter
(`none` = every permutation exhausted, `getRandomState` returns `nil`),
then build and score the state. -/
def nextRandomState (pp : String → Option Point) (items : List Item)
    (near : Item → String → Option Point) (rules : List Rule)
    (groups : List Group) (pc : List ℕ) : GenOut :=
  match incPerm pc with
  | none => GenOut.exhausted
  | some pc2 => stateFromPerm pp items near rules groups pc2

/-! ## `getBestNextStateFrom`: the relocate/swap neighbourhood -/

/-- The relocate move: append item `i` of group `g1` to group `g2` and
delete it from `g1` by overwriting it with `g1`'s last item and dropping
the last slot.  Out-of-range indices return the state unchanged (they are
never produced by the enumeration below). -/
def relocateMove (src : State) (g1 i g2 : ℕ) : State :=
  match src.groups[g1]?, src.groups[g2]? with
  | some gA, some gB =>
    match gA.items[i]?, gA.items.getLast? with
    | some x, some lastIt =>
      let gA2 := { gA with items := (gA.items.set i lastIt).dropLast }
      let gB2 := { gB with items := gB.items ++ [x] }
      { src with groups := (src.groups.set g1 gA2).set g2 gB2 }
    | _, _ => src
  | _, _ => src

/-- The swap move: exchange item `i` of group `g1` with item `i2` of
group `g2`. -/
def swapMove (src : State) (g1 i g2 i2 : ℕ) : State :=
  match src.groups[g1]?, src.groups[g2]? with
  | some gA, some gB =>
    match gA.items[i]?, gB.items[i2]? with
    | some x, some y =>
      let gA2 := { gA with items := gA.items.set i y }
      let gB2 := { gB with items := gB.items.set i2 x }
      { src with groups := (src.groups.set g1 gA2).set g2 gB2 }
    | _, _ => src
  | _, _ => src

/-- Auxiliary size lookup used by the candidate enumeration. -/
def groupLen (src : State) (g : ℕ) : ℕ :=
  match src.groups[g]? with
  | some gr => gr.items.length
  | none => 0

/-- Auxiliary `MaxSize` lookup used by the candidate enumeration. -/
def groupMax (src : State) (g : ℕ) : ℤ :=
  match src.groups[g]? with
  | some gr => gr.maxSize
  | none => 0

/-- All candidate neighbour states of `getBestNextStateFrom`, in the
code's loop order: for each item `i` of each group `g1` and each other
group `g2`, a relocate when `g2` has room, otherwise a swap with each of
`g2`'s items.  (Each candidate is a single move applied to the source
state: the code restores `s` after a non-improving candidate and restarts
from a fresh copy after an improving one.) -/
def candidateMoves (src : State) : List State :=
  (List.range src.groups.length).flatMap fun g1 =>
    (List.range (groupLen src g1)).flatMap fun i =>
      (List.range src.groups.length).flatMap fun g2 =>
        if g1 = g2 then []
        else if (groupLen src g2 : ℤ) < groupMax src g2 then [relocateMove src g1 i g2]
        else (List.range (groupLen src g2)).map fun i2 => swapMove src g1 i g2 i2

/-- `runner.getBestNextStateFrom`: score each candidate and keep the
first strictly improving one over the best so far, starting from the
source state (with its stored score).  `none` models a scoring panic. -/
def getBestNextStateFrom (pp : String → Option Point) (items : List Item)
    (near : Item → String → Option Point) (rules : List Rule)
    (src : State) : Option State :=
  (candidateMoves src).foldlM
    (fun best cand =>
      match CalculateScore pp items near rules cand with
      | none => none
      | some q => some (if best.score < q then { cand with score := q } else best))
    src

/-! ## The search driver `runner.run` -/

/-- The outcome of a run.  `configError` is the validation failure;
`panicked` the `RuleTypeRelationship` panic; `outOfFuel` covers both the
round-robin divergence and the fuel of the main loop running out.  The
context cancellation (`quitting()`) is modelled as never firing
(`context.Background()`). -/
inductive RunResult where
  | configError
  | panicked
  | ok (gs : List Group)
  | outOfFuel

/-- The main loop of `runner.run`, with fuel: dedupe on the state digest,
hill-climb while an improving neighbour exists, remember the best local
optimum, restart from the next permutation. -/
def runLoop (pp : String → Option Point) (items : List Item)
    (near : Item → String → Option Point) (rules : List Rule)
    (groups : List Group) :
    ℕ → State → List ℕ → List ℕ → State → RunResult
  | 0, _, _, _, _ => RunResult.outOfFuel
  | fuel + 1, next, pc, tried, best =>
    let d := State.digest next
    if tried.contains d then
      match nextRandomState pp items near rules groups pc with
      | GenOut.exhausted => RunResult.ok best.groups
      | GenOut.panic => RunResult.panicked
      | GenOut.diverge => RunResult.outOfFuel
      | GenOut.next s pc2 => runLoop pp items near rules groups fuel s pc2 tried best
    else
      let tried2 := d :: tried
      match getBestNextStateFrom pp items near rules next with
      | none => RunResult.panicked
      | some bo =>
        if next.score < bo.score then
          runLoop pp items near rules groups fuel bo pc tried2 best
        else
          let best2 := if best.score < next.score then next else best
          match nextRandomState pp items near rules groups pc with
          | GenOut.exhausted => RunResult.ok best2.groups
          | GenOut.panic => RunResult.panicked
          | GenOut.diverge => RunResult.outOfFuel
          | GenOut.next s pc2 => runLoop pp items near rules groups fuel s pc2 tried2 best2

/-- `runner.run` (hill-climbing revision), with fuel for the main loop:
validate, pre-parse the nearness points, produce the first state from the
identity permutation, and iterate.  Timeouts never fire in this model. -/
def run (pp : String → Option Point) (fuel : ℕ) (items : List Item)
    (rules : List Rule) (groups : List Group) : RunResult :=
  if !validateInput items groups then RunResult.configError
  else
    let near := populateNearnessTagPoints pp rules
    match stateFromPerm pp items near rules groups (List.replicate items.length 0) with
    | GenOut.diverge => RunResult.outOfFuel
    | GenOut.exhausted => RunResult.outOfFuel
    | GenOut.panic => RunResult.panicked
    | GenOut.next s pc => runLoop pp items near rules groups fuel s pc [] s

end Arrangeit

namespace Arrangeit

/-! ## Concrete fixtures used to instantiate the theorems below -/

/-- An item with ID `"a"` and no tags. -/
def itA : Item := ⟨[97], fun _ => ""⟩

/-- An item with ID `"b"` and no tags. -/
def itB : Item := ⟨[98], fun _ => ""⟩

/-- A parse function that fails on every string (no nearness data). -/
def ppNone : String → Option Point := fun _ => none

/-- Checker: the run succeeded and some returned group exceeds its
`MaxSize`. -/
def someGroupOverMax : RunResult → Bool
  | RunResult.ok gs => gs.any fun g => decide (g.maxSize < (g.items.length : ℤ))
  | _ => false

/-- Checker: the run succeeded and some non-empty returned group is below
its `MinSize`. -/
def someGroupUnderMin : RunResult → Bool
  | RunResult.ok gs =>
    gs.any fun g => !decide (g.items.length = 0) && decide ((g.items.length : ℤ) < g.minSize)
  | _ => false

/-- Checker: the run returned an arrangement (no error, no panic). -/
def isOkResult : RunResult → Bool
  | RunResult.ok _ => true
  | _ => false

end Arrangeit

namespace Arrangeit

/-! ## Helper lemmas about the run loop -/

/-- The main loop never produces a configuration error: validation happens
only before the loop starts. -/
theorem runLoop_ne_configError (pp : String → Option Point) (items : List Item)
    (near : Item → String → Option Point) (rules : List Rule) (groups : List Group) :
    ∀ fuel next pc tried best,
      runLoop pp items near rules groups fuel next pc tried best ≠ RunResult.configError := by
  intro fuel
  induction fuel with
  | zero => intro next pc tried best; simp [runLoop]
  | succ n ih =>
    intro next pc tried best
    rw [runLoop]
    split
    · cases nextRandomState pp items near rules groups pc <;> simp [ih]
    · cases getBestNextStateFrom pp items near rules next
      · simp
      · dsimp only
        split
        · exact ih _ _ _ _
        · cases nextRandomState pp items near rules groups pc <;> simp [ih]

end Arrangeit

namespace Arrangeit

/-- C7: capacity pre-validation.  If the groups' summed `MaxSize` is
strictly below the item count, `run` (hence `GetArrangement`) returns the
configuration error straight away — the error is produced before the first
state is generated or scored; otherwise validation passes and the run
never produces a configuration error, whatever else happens. -/
theorem c7_capacity_validation (pp : String → Option Point) (fuel : ℕ)
    (items : List Item) (rules : List Rule) (groups : List Group) :
    ((groups.map Group.maxSize).sum < (items.length : ℤ) →
      run pp fuel items rules groups = RunResult.configError) ∧
    ((items.length : ℤ) ≤ (groups.map Group.maxSize).sum →
      run pp fuel items rules groups ≠ RunResult.configError) := by
  constructor
  · intro h
    have hv : validateInput items groups = false := by
      simp [validateInput]; omega
    simp [run, hv]
  · intro h
    have hv : validateInput items groups = true := by
      simp [validateInput]; omega
    rw [run, hv]
    dsimp only
    cases stateFromPerm pp items (populateNearnessTagPoints pp rules) rules groups
        (List.replicate items.length 0) <;> simp
    exact runLoop_ne_configError pp items (populateNearnessTagPoints pp rules) rules groups
      fuel _ _ _ _

/-- Witness for C7 at concrete inputs: one item and no groups fails with
the configuration error; one item and one roomy group does not. -/
theorem c7_capacity_validation_witness :
    run ppNone 5 [itA] [] [] = RunResult.configError ∧
      run ppNone 5 [itA] [] [⟨"G1", 0, 1, []⟩] ≠ RunResult.configError :=
  ⟨(c7_capacity_validation ppNone 5 [itA] [] []).1 (by decide),
   (c7_capacity_validation ppNone 5 [itA] [] [⟨"G1", 0, 1, []⟩]).2 (by decide)⟩

/-- C3: on an input that passes capacity validation but admits no feasible
terminal state (two items, one group with `MinSize 3`), the hill-climbing
`runner.run` evaluates to a successful arrangement whose non-empty group is
below its `MinSize`, with no error: the "no workable arrangement" failure
required by the specification does not exist in this revision (the
`failed to discover any workable state` error of the `arrangeit.go`
revision fires only when no terminal state at all was recorded). -/
theorem c3_silently_returns_infeasible :
    validateInput [itA, itB] [⟨"G1", 3, 4, []⟩] = true ∧
      isOkResult (run ppNone 10 [itA, itB] [] [⟨"G1", 3, 4, []⟩]) = true ∧
      someGroupUnderMin (run ppNone 10 [itA, itB] [] [⟨"G1", 3, 4, []⟩]) = true := by
  refine ⟨by decide, ?_, ?_⟩ <;> decide

end Arrangeit

namespace Arrangeit

/-- The sentinel numeral is exactly `2 ^ 1024 - 2 ^ 971`
(`-math.MaxFloat64`). -/
theorem minScoreQ_eq : minScoreQ = -(2 ^ 1024 - 2 ^ 971) := by
  norm_num [minScoreQ]

/-- C2 counterexample: the capacity invariant fails on the code as stated.
With templates `MinSize 2 > MaxSize 1` (plus a roomy second group, so
validation passes), the `MinSize`-filling phase of `getRandomState`
ignores `MaxSize` and the run successfully returns a group of 2 items
with `MaxSize 1`; and with two items and a single `MinSize 3 / MaxSize 4`
group the run successfully returns a non-empty group below its
`MinSize`. -/
theorem c2_capacity_counterexample :
    someGroupOverMax
        (run ppNone 10 [itA, itB] [] [⟨"G1", 2, 1, []⟩, ⟨"G2", 0, 3, []⟩]) = true ∧
      someGroupUnderMin (run ppNone 10 [itA, itB] [] [⟨"G1", 3, 4, []⟩]) = true := by
  constructor <;> decide

/-- C8 counterexample: a live `Relationship` rule does not always abort
the run.  With two items and a single `MinSize 3 / MaxSize 4` group,
validation passes, yet every generated state is terminal and fails the
minimum-size screen, so `CalculateScore` returns the sentinel before ever
reaching the rules loop: the run completes and returns an arrangement
without panicking. -/
theorem c8_relationship_counterexample :
    validateInput [itA, itB] [⟨"G1", 3, 4, []⟩] = true ∧
      hasLiveRelationship [⟨"t", RuleType.Relationship, 1⟩] = true ∧
      isOkResult (run ppNone 10 [itA, itB] [⟨"t", RuleType.Relationship, 1⟩]
        [⟨"G1", 3, 4, []⟩]) = true := by
  refine ⟨by decide, by decide, by decide⟩

/-- C5 counterexample: in the `arrangeit.go` revision `Group.digest` hashes
the items in slice order, so two states with the same multiset of
item-ID sets — a single group holding items `a` and `b`, in the two
orders — get different `State.digest` values. -/
theorem c5_digest_counterexample :
    ((⟨[⟨"g", 0, 2, [itA, itB]⟩], [], 0⟩ : State).groups.map
        (fun g => ((g.items.map Item.id : List (List ℕ)) : Multiset (List ℕ))) =
      (⟨[⟨"g", 0, 2, [itB, itA]⟩], [], 0⟩ : State).groups.map
        (fun g => ((g.items.map Item.id : List (List ℕ)) : Multiset (List ℕ)))) ∧
    stateDigestUnsorted ⟨[⟨"g", 0, 2, [itA, itB]⟩], [], 0⟩ ≠
      stateDigestUnsorted ⟨[⟨"g", 0, 2, [itB, itA]⟩], [], 0⟩ := by
  constructor
  · simp only [List.map_cons, List.map_nil, List.cons.injEq, and_true]
    exact Quot.sound (List.Perm.swap _ _ _)
  · decide

end Arrangeit

namespace Arrangeit

/-! ## Geometry lemmas -/

/-- A max-fold only grows from its initial accumulator. -/
theorem le_foldlMax (f : Point → ℚ) :
    ∀ (l : List Point) (a : ℚ), a ≤ l.foldl (fun x q => max x (f q)) a := by
  intro l
  induction l with
  | nil => intro a; simp
  | cons p r ih =>
    intro a
    calc a ≤ max a (f p) := le_max_left _ _
    _ ≤ _ := ih _

/-- A max-fold dominates every member of the list. -/
theorem mem_le_foldlMax (f : Point → ℚ) :
    ∀ (l : List Point) (a : ℚ) (z : Point), z ∈ l →
      f z ≤ l.foldl (fun x q => max x (f q)) a := by
  intro l
  induction l with
  | nil => intro a z hz; cases hz
  | cons p r ih =>
    intro a z hz
    rcases List.mem_cons.mp hz with h | h
    · subst h
      calc f z ≤ max a (f z) := le_max_right _ _
      _ ≤ _ := le_foldlMax f r _
    · exact ih _ z h

/-- A max-fold stays below any bound dominating the accumulator and the
list. -/
theorem foldlMax_le (f : Point → ℚ) :
    ∀ (l : List Point) (a B : ℚ), a ≤ B → (∀ z ∈ l, f z ≤ B) →
      l.foldl (fun x q => max x (f q)) a ≤ B := by
  intro l
  induction l with
  | nil => intro a B h _; simpa using h
  | cons p r ih =>
    intro a B h hl
    exact ih _ B (max_le h (hl p (List.mem_cons_self _ _)))
      fun z hz => hl z (List.mem_cons_of_mem _ hz)

/-- A min-fold only shrinks from its initial accumulator. -/
theorem foldlMin_le (f : Point → ℚ) :
    ∀ (l : List Point) (a : ℚ), l.foldl (fun x q => min x (f q)) a ≤ a := by
  intro l
  induction l with
  | nil => intro a; simp
  | cons p r ih =>
    intro a
    calc (p :: r).foldl (fun x q => min x (f q)) a
        = r.foldl (fun x q => min x (f q)) (min a (f p)) := rfl
    _ ≤ min a (f p) := ih _
    _ ≤ a := min_le_left _ _

/-- A min-fold is below every member of the list. -/
theorem foldlMin_le_mem (f : Point → ℚ) :
    ∀ (l : List Point) (a : ℚ) (z : Point), z ∈ l →
      l.foldl (fun x q => min x (f q)) a ≤ f z := by
  intro l
  induction l with
  | nil => intro a z hz; cases hz
  | cons p r ih =>
    intro a z hz
    rcases List.mem_cons.mp hz with h | h
    · subst h
      calc r.foldl (fun x q => min x (f q)) (min a (f z)) ≤ min a (f z) := foldlMin_le f r _
      _ ≤ f z := min_le_right _ _
    · exact ih _ z h

/-- A min-fold stays above any bound below the accumulator and the list. -/
theorem le_foldlMin (f : Point → ℚ) :
    ∀ (l : List Point) (a B : ℚ), B ≤ a → (∀ z ∈ l, B ≤ f z) →
      B ≤ l.foldl (fun x q => min x (f q)) a := by
  intro l
  induction l with
  | nil => intro a B h _; simpa using h
  | cons p r ih =>
    intro a B h hl
    exact ih _ B (le_min h (hl p (List.mem_cons_self _ _)))
      fun z hz => hl z (List.mem_cons_of_mem _ hz)

/-- The bounding-box spread is never negative. -/
theorem getDistribution_nonneg (l : List Point) : 0 ≤ getDistribution l := by
  cases l with
  | nil => simp [getDistribution]
  | cons p r =>
    have h1 : r.foldl (fun x q => min x q.1) p.1 ≤ r.foldl (fun x q => max x q.1) p.1 :=
      le_trans (foldlMin_le (fun q => q.1) r p.1) (le_foldlMax (fun q => q.1) r p.1)
    have h2 : r.foldl (fun x q => min x q.2) p.2 ≤ r.foldl (fun x q => max x q.2) p.2 :=
      le_trans (foldlMin_le (fun q => q.2) r p.2) (le_foldlMax (fun q => q.2) r p.2)
    simp only [getDistribution]
    linarith

/-- The bounding-box spread is monotone under (memberwise) inclusion of
non-empty point sets: this is the implementation invariant behind the
distribution ratio staying within `[0, 1]`. -/
theorem getDistribution_mono (l1 l2 : List Point) (hsub : ∀ p ∈ l1, p ∈ l2)
    (hne : l1 ≠ []) : getDistribution l1 ≤ getDistribution l2 := by
  cases l1 with
  | nil => exact absurd rfl hne
  | cons p r1 =>
    cases l2 with
    | nil => exact absurd (hsub p (List.mem_cons_self _ _)) (List.not_mem_nil p)
    | cons q r2 =>
      have hub : ∀ f : Point → ℚ, ∀ z ∈ p :: r1,
          f z ≤ (q :: r2).foldl (fun x w => max x (f w)) (f q) := by
        intro f z hz
        have : f z ≤ r2.foldl (fun x w => max x (f w)) (f q) := by
          rcases List.mem_cons.mp (hsub z hz) with h | h
          · subst h; exact le_foldlMax f r2 (f z)
          · exact mem_le_foldlMax f r2 (f q) z h
        simpa using this
      have hlb : ∀ f : Point → ℚ, ∀ z ∈ p :: r1,
          (q :: r2).foldl (fun x w => min x (f w)) (f q) ≤ f z := by
        intro f z hz
        have : r2.foldl (fun x w => min x (f w)) (f q) ≤ f z := by
          rcases List.mem_cons.mp (hsub z hz) with h | h
          · subst h; exact foldlMin_le f r2 (f z)
          · exact foldlMin_le_mem f r2 (f q) z h
        simpa using this
      have hx1 : r1.foldl (fun x w => max x (w.1)) p.1 ≤
          r2.foldl (fun x w => max x (w.1)) q.1 := by
        refine foldlMax_le _ r1 _ _ ?_ ?_
        · simpa using hub (fun w => w.1) p (List.mem_cons_self _ _)
        · intro z hz
          simpa using hub (fun w => w.1) z (List.mem_cons_of_mem _ hz)
      have hx2 : r1.foldl (fun x w => max x (w.2)) p.2 ≤
          r2.foldl (fun x w => max x (w.2)) q.2 := by
        refine foldlMax_le _ r1 _ _ ?_ ?_
        · simpa using hub (fun w => w.2) p (List.mem_cons_self _ _)
        · intro z hz
          simpa using hub (fun w => w.2) z (List.mem_cons_of_mem _ hz)
      have hn1 : r2.foldl (fun x w => min x (w.1)) q.1 ≤
          r1.foldl (fun x w => min x (w.1)) p.1 := by
        refine le_foldlMin _ r1 _ _ ?_ ?_
        · simpa using hlb (fun w => w.1) p (List.mem_cons_self _ _)
        · intro z hz
          simpa using hlb (fun w => w.1) z (List.mem_cons_of_mem _ hz)
      have hn2 : r2.foldl (fun x w => min x (w.2)) q.2 ≤
          r1.foldl (fun x w => min x (w.2)) p.2 := by
        refine le_foldlMin _ r1 _ _ ?_ ?_
        · simpa using hlb (fun w => w.2) p (List.mem_cons_self _ _)
        · intro z hz
          simpa using hlb (fun w => w.2) z (List.mem_cons_of_mem _ hz)
      simp only [getDistribution]
      linarith

end Arrangeit

namespace Arrangeit

/-- Characterisation of the fused fold of `getGroupDistribution` once at
least one point has been seen. -/
theorem groupDistFold_char :
    ∀ (rest : List Point) (n : ℕ) (a b c d : ℚ), 0 < n →
      rest.foldl groupDistStep (n, a, b, c, d) =
        (n + rest.length,
          rest.foldl (fun x q => max x q.1) a,
          rest.foldl (fun x q => min x q.1) b,
          rest.foldl (fun x q => max x q.2) c,
          rest.foldl (fun x q => min x q.2) d) := by
  intro rest
  induction rest with
  | nil => intro n a b c d _; simp
  | cons p r ih =>
    intro n a b c d hn
    have hstep : groupDistStep (n, a, b, c, d) p =
        (n + 1, max a p.1, min b p.1, max c p.2, min d p.2) := by
      simp [groupDistStep, hn]
    calc ((p :: r).foldl groupDistStep (n, a, b, c, d))
        = r.foldl groupDistStep (n + 1, max a p.1, min b p.1, max c p.2, min d p.2) := by
          simp [List.foldl_cons, hstep]
    _ = _ := by
          rw [ih (n + 1) _ _ _ _ (Nat.succ_pos n)]
          simp [List.length_cons]
          omega

/-- The fused single-pass `getGroupDistribution` computes exactly the
spread and count of the group's parsed points. -/
theorem getGroupDistribution_eq (near : Item → String → Option Point) (g : Group)
    (tagName : String) :
    getGroupDistribution near g tagName =
      (getDistribution (g.items.filterMap fun it => near it tagName),
        (g.items.filterMap fun it => near it tagName).length) := by
  rw [getGroupDistribution]
  cases hp : g.items.filterMap fun it => near it tagName with
  | nil => simp [getDistribution]
  | cons p r =>
    have h0 : groupDistStep (0, 0, 0, 0, 0) p = (1, p.1, p.1, p.2, p.2) := by
      simp [groupDistStep]
    simp only [List.foldl_cons, h0, groupDistFold_char r 1 _ _ _ _ Nat.one_pos]
    simp [getDistribution]
    omega

end Arrangeit

namespace Arrangeit

/-- Every parsed point of a group whose items come from the run's item
list also occurs among the points `maxDistributionForTag` is computed
from: `populateNearnessTagPoints` stores exactly the successful parse of
the same (non-empty) tag value the global pass parses. -/
theorem groupPoints_mem_global (pp : String → Option Point) (rules : List Rule)
    (items : List Item) (g : Group) (tagName : String)
    (hsub : ∀ it ∈ g.items, it ∈ items) :
    ∀ p ∈ g.items.filterMap (fun it => populateNearnessTagPoints pp rules it tagName),
      p ∈ items.filterMap (fun it =>
        if it.tags tagName = "" then none else pp (it.tags tagName)) := by
  intro p hp
  rcases List.mem_filterMap.mp hp with ⟨it, hit, hpop⟩
  rw [populateNearnessTagPoints] at hpop
  refine List.mem_filterMap.mpr ⟨it, hsub it hit, ?_⟩
  by_cases hany : (rules.any fun r =>
      decide (r.type = RuleType.Nearness) && !decide (r.weight = 0) &&
        decide (r.tagName = tagName)) = true
  · rw [if_pos hany] at hpop
    exact hpop
  · rw [if_neg hany] at hpop
    exact absurd hpop (Option.some_ne_none p).symm

/-- C9: for every group whose items are drawn from the run's input items
and every Nearness-rule tag, the group's distribution never exceeds the
global maximum distribution for that tag, and consequently the
distribution ratio used by the Nearness scoring never exceeds `1`. -/
theorem c9_distribution_ratio_bound (pp : String → Option Point) (items : List Item)
    (rules : List Rule) (g : Group) (rule : Rule)
    (_hmem : rule ∈ rules) (_htype : rule.type = RuleType.Nearness)
    ( _hw : rule.weight ≠ 0) (hsub : ∀ it ∈ g.items, it ∈ items) :
    (getGroupDistribution (populateNearnessTagPoints pp rules) g rule.tagName).1 ≤
        maxDistributionForTag pp items rule.tagName ∧
      (getGroupDistribution (populateNearnessTagPoints pp rules) g rule.tagName).1 /
          maxDistributionForTag pp items rule.tagName ≤ 1 := by
  have hmax0 : 0 ≤ maxDistributionForTag pp items rule.tagName :=
    getDistribution_nonneg _
  have hd : (getGroupDistribution (populateNearnessTagPoints pp rules) g rule.tagName).1 ≤
      maxDistributionForTag pp items rule.tagName := by
    rw [getGroupDistribution_eq, maxDistributionForTag]
    cases hpts : g.items.filterMap
        (fun it => populateNearnessTagPoints pp rules it rule.tagName) with
    | nil => simpa [getDistribution] using hmax0
    | cons p r =>
      refine getDistribution_mono _ _ ?_ (List.cons_ne_nil p r)
      intro z hz
      exact groupPoints_mem_global pp rules items g rule.tagName hsub z (hpts ▸ hz)
  refine ⟨hd, ?_⟩
  rcases eq_or_lt_of_le hmax0 with h0 | h0
  · rw [← h0, div_zero]
    exact zero_le_one
  · exact (div_le_one h0).mpr hd

/-- Witness for C9 at a concrete input: one tagged item in the group, two
in the run. -/
theorem c9_distribution_ratio_bound_witness :
    (getGroupDistribution
        (populateNearnessTagPoints
          (fun s => if s = "0,0" then some (0, 0) else if s = "1,2" then some (1, 2) else none)
          [⟨"loc", RuleType.Nearness, 1⟩])
        ⟨"G1", 0, 2, [⟨[97], fun _ => "0,0"⟩]⟩ "loc").1 ≤
      maxDistributionForTag
        (fun s => if s = "0,0" then some (0, 0) else if s = "1,2" then some (1, 2) else none)
        [⟨[97], fun _ => "0,0"⟩, ⟨[99], fun _ => "1,2"⟩] "loc" ∧
    (getGroupDistribution
        (populateNearnessTagPoints
          (fun s => if s = "0,0" then some (0, 0) else if s = "1,2" then some (1, 2) else none)
          [⟨"loc", RuleType.Nearness, 1⟩])
        ⟨"G1", 0, 2, [⟨[97], fun _ => "0,0"⟩]⟩ "loc").1 /
        maxDistributionForTag
          (fun s => if s = "0,0" then some (0, 0) else if s = "1,2" then some (1, 2) else none)
          [⟨[97], fun _ => "0,0"⟩, ⟨[99], fun _ => "1,2"⟩] "loc" ≤ 1 :=
  c9_distribution_ratio_bound
    (fun s => if s = "0,0" then some (0, 0) else if s = "1,2" then some (1, 2) else none)
    [⟨[97], fun _ => "0,0"⟩, ⟨[99], fun _ => "1,2"⟩]
    [⟨"loc", RuleType.Nearness, 1⟩] ⟨"G1", 0, 2, [⟨[97], fun _ => "0,0"⟩]⟩
    ⟨"loc", RuleType.Nearness, 1⟩ (List.mem_singleton.mpr rfl) rfl (by decide)
    (by intro it hit; simp only [List.mem_singleton] at hit; simp [hit])

end Arrangeit

namespace Arrangeit

/-- Dropping an element that maps to `none` from the middle of a list does
not change a `filterMap`. -/
theorem filterMap_middle_none {α β : Type} (f : α → Option β) (pre post : List α)
    (a : α) (ha : f a = none) :
    (pre ++ a :: post).filterMap f = (pre ++ post).filterMap f := by
  simp [List.filterMap_append, List.filterMap_cons, ha]

/-- C10: empty tag values are score-neutral.  An item whose value for a
tag is `""` (1) leaves a group's Sameness occurrence counting — hence its
Sameness score — unchanged, (2) gets no entry in the nearness point
pre-parse, (3) hence is excluded from every group's point set and leaves
`getGroupDistribution` unchanged, and (4) is excluded from the global
maximum-distribution computation. -/
theorem c10_empty_tag_values_neutral :
    (∀ (rule : Rule) (name : String) (mn mx : ℤ) (pre post : List Item) (it : Item),
        it.tags rule.tagName = "" →
        samenessGroupScore rule ⟨name, mn, mx, pre ++ it :: post⟩ =
          samenessGroupScore rule ⟨name, mn, mx, pre ++ post⟩) ∧
    (∀ (pp : String → Option Point) (rules : List Rule) (it : Item) (tagName : String),
        it.tags tagName = "" → populateNearnessTagPoints pp rules it tagName = none) ∧
    (∀ (near : Item → String → Option Point) (name : String) (mn mx : ℤ)
        (pre post : List Item) (it : Item) (tagName : String),
        near it tagName = none →
        getGroupDistribution near ⟨name, mn, mx, pre ++ it :: post⟩ tagName =
          getGroupDistribution near ⟨name, mn, mx, pre ++ post⟩ tagName) ∧
    (∀ (pp : String → Option Point) (pre post : List Item) (it : Item) (tagName : String),
        it.tags tagName = "" →
        maxDistributionForTag pp (pre ++ it :: post) tagName =
          maxDistributionForTag pp (pre ++ post) tagName) := by
  refine ⟨?_, ?_, ?_, ?_⟩
  · intro rule name mn mx pre post it hempty
    have hvals : groupTagValues ⟨name, mn, mx, pre ++ it :: post⟩ rule.tagName =
        groupTagValues ⟨name, mn, mx, pre ++ post⟩ rule.tagName := by
      unfold groupTagValues
      exact filterMap_middle_none _ pre post it (by simp [hempty])
    unfold samenessGroupScore
    rw [hvals]
  · intro pp rules it tagName hempty
    unfold populateNearnessTagPoints
    simp [hempty]
  · intro near name mn mx pre post it tagName hnone
    unfold getGroupDistribution
    rw [show (⟨name, mn, mx, pre ++ it :: post⟩ : Group).items.filterMap
          (fun i => near i tagName) =
        (⟨name, mn, mx, pre ++ post⟩ : Group).items.filterMap (fun i => near i tagName) from
      filterMap_middle_none _ pre post it hnone]
  · intro pp pre post it tagName hempty
    unfold maxDistributionForTag
    rw [filterMap_middle_none _ pre post it (by simp [hempty])]

/-- Witness for C10 at concrete inputs: an item with an empty `"t"` tag
inserted into a one-item group, a one-rule rule set, and a two-item run. -/
theorem c10_empty_tag_values_neutral_witness :
    samenessGroupScore ⟨"t", RuleType.Sameness, 1⟩ ⟨"G1", 0, 2, [itA] ++ itB :: []⟩ =
        samenessGroupScore ⟨"t", RuleType.Sameness, 1⟩ ⟨"G1", 0, 2, [itA] ++ []⟩ ∧
      populateNearnessTagPoints ppNone [⟨"t", RuleType.Nearness, 1⟩] itB "t" = none ∧
      getGroupDistribution (fun _ _ => none) ⟨"G1", 0, 2, [itA] ++ itB :: []⟩ "t" =
          getGroupDistribution (fun _ _ => none) ⟨"G1", 0, 2, [itA] ++ []⟩ "t" ∧
      maxDistributionForTag ppNone ([itA] ++ itB :: []) "t" =
        maxDistributionForTag ppNone ([itA] ++ []) "t" :=
  ⟨c10_empty_tag_values_neutral.1 ⟨"t", RuleType.Sameness, 1⟩ "G1" 0 2 [itA] [] itB rfl,
   c10_empty_tag_values_neutral.2.1 ppNone [⟨"t", RuleType.Nearness, 1⟩] itB "t" rfl,
   c10_empty_tag_values_neutral.2.2.1 (fun _ _ => none) "G1" 0 2 [itA] [] itB "t" rfl,
   c10_empty_tag_values_neutral.2.2.2 ppNone [itA] [] itB "t" rfl⟩

end Arrangeit

namespace Arrangeit

/-! ## Digest canonicality -/

/-- `bytesLe` is total. -/
theorem bytesLe_total : ∀ a b : List ℕ, bytesLe a b = true ∨ bytesLe b a = true := by
  intro a
  induction a with
  | nil => intro b; left; rfl
  | cons x xs ih =>
    intro b
    cases b with
    | nil => right; rfl
    | cons y ys =>
      by_cases hxy : x < y
      · left; simp [bytesLe, hxy]
      · by_cases hyx : y < x
        · right; simp [bytesLe, hyx]
        · have hx : ¬ y < x := hyx
          rcases ih ys with h | h
          · left; simp [bytesLe, hxy, hx, h]
          · right; simp [bytesLe, hxy, hx, h]

/-- `bytesLe` is transitive. -/
theorem bytesLe_trans :
    ∀ a b c : List ℕ, bytesLe a b = true → bytesLe b c = true → bytesLe a c = true := by
  intro a
  induction a with
  | nil => intro b c _ _; rfl
  | cons x xs ih =>
    intro b c hab hbc
    cases b with
    | nil => exact absurd hab (by simp [bytesLe])
    | cons y ys =>
      cases c with
      | nil => exact absurd hbc (by simp [bytesLe])
      | cons z zs =>
        simp only [bytesLe] at hab hbc ⊢
        by_cases hxy : x < y
        · have hxz : x < z := by
            by_cases hyz : y < z
            · omega
            · by_cases hzy : z < y
              · simp [hyz, hzy] at hbc
              · omega
          simp [hxz]
        · by_cases hyx : y < x
          · simp [hxy, hyx] at hab
          · have hxy2 : x = y := by omega
            subst hxy2
            by_cases hyz : x < z
            · simp [hyz]
            · by_cases hzy : z < x
              · simp [hyz, hzy] at hbc
              · have : ¬ z < x := hzy
                simp only [if_neg hyz, if_neg this]
                simp only [if_neg hxy, if_neg hyx] at hab
                simp only [if_neg hyz, if_neg this] at hbc
                exact ih ys zs hab hbc

/-- `bytesLe` is antisymmetric. -/
theorem bytesLe_antisymm :
    ∀ a b : List ℕ, bytesLe a b = true → bytesLe b a = true → a = b := by
  intro a
  induction a with
  | nil =>
    intro b _ hba
    cases b with
    | nil => rfl
    | cons y ys => exact absurd hba (by simp [bytesLe])
  | cons x xs ih =>
    intro b hab hba
    cases b with
    | nil => exact absurd hab (by simp [bytesLe])
    | cons y ys =>
      simp only [bytesLe] at hab hba
      by_cases hxy : x < y
      · simp [hxy] at hba; omega
      · by_cases hyx : y < x
        · simp [hxy, hyx] at hab
        · have hxy2 : x = y := by omega
          subst hxy2
          simp only [if_neg hxy, if_neg hyx] at hab hba
          rw [ih ys hab hba]

/-- Lift a permutation of images along `map`: if `map f l` is a
permutation of `L`, then some permutation `l2` of `l` maps exactly to
`L`. -/
theorem exists_perm_of_map_perm {α β : Type} (f : α → β) :
    ∀ (L : List β) (l : List α), (l.map f).Perm L → ∃ l2, l.Perm l2 ∧ l2.map f = L := by
  intro L
  induction L with
  | nil =>
    intro l h
    have : l.map f = [] := List.Perm.eq_nil h
    have hl : l = [] := List.map_eq_nil_iff.mp this
    exact ⟨[], by simp [hl], rfl⟩
  | cons b L2 ih =>
    intro l h
    have hb : b ∈ l.map f := h.symm.subset (List.mem_cons_self b L2)
    rcases List.exists_of_mem_map hb with ⟨a, ha, hfa⟩
    rcases List.append_of_mem ha with ⟨s, t, hl⟩
    subst hl
    have hmid : (s ++ a :: t).Perm (a :: (s ++ t)) := List.perm_middle
    have hmap : ((s ++ a :: t).map f).Perm (f a :: ((s ++ t).map f)) := by
      simp
    have h2 : (f a :: ((s ++ t).map f)).Perm (b :: L2) := hmap.symm.trans h
    rw [hfa] at h2
    have h3 : ((s ++ t).map f).Perm L2 := h2.cons_inv
    rcases ih (s ++ t) h3 with ⟨l3, hperm3, hmap3⟩
    refine ⟨a :: l3, ?_, ?_⟩
    · exact hmid.trans (hperm3.cons a)
    · simp [hmap3, hfa]

/-- Transfer a `map`-equality along a function that only depends on the
mapped view. -/
theorem map_congr_of_map_eq {α β γ : Type} {f : α → β} {g : α → γ}
    (hfg : ∀ a b : α, f a = f b → g a = g b) :
    ∀ l1 l2 : List α, l1.map f = l2.map f → l1.map g = l2.map g := by
  intro l1
  induction l1 with
  | nil =>
    intro l2 h
    cases l2 with
    | nil => rfl
    | cons c cs => exact absurd h (by simp)
  | cons a as ih =>
    intro l2 h
    cases l2 with
    | nil => exact absurd h (by simp)
    | cons c cs =>
      simp only [List.map_cons, List.cons.injEq] at h ⊢
      exact ⟨hfg a c h.1, ih cs h.2⟩

/-- The sorted group digest depends only on the multiset of item IDs. -/
theorem groupDigest_eq_of_perm_ids (g1 g2 : Group)
    (h : (g1.items.map Item.id).Perm (g2.items.map Item.id)) :
    Group.digest g1 = Group.digest g2 := by
  have hms : ∀ g : Group,
      (g.items.mergeSort (fun i j => bytesLe i.id j.id)).map Item.id =
        (g.items.map Item.id).mergeSort bytesLe := by
    intro g
    exact List.map_mergeSort (fun a _ b _ => rfl)
  have hperm : ((g1.items.map Item.id).mergeSort bytesLe).Perm
      ((g2.items.map Item.id).mergeSort bytesLe) :=
    ((List.mergeSort_perm _ _).trans h).trans (List.mergeSort_perm _ _).symm
  have hsorted : ∀ l : List (List ℕ),
      List.Sorted (fun a b => bytesLe a b = true) (l.mergeSort bytesLe) :=
    fun l => List.sorted_mergeSort bytesLe_trans
      (fun a b => by rcases bytesLe_total a b with h | h <;> simp [h]) l
  have heq : (g1.items.map Item.id).mergeSort bytesLe =
      (g2.items.map Item.id).mergeSort bytesLe :=
    @List.eq_of_perm_of_sorted _ _ ⟨bytesLe_antisymm⟩ _ _ hperm (hsorted _) (hsorted _)
  show fnvHash ((g1.items.mergeSort fun i j => bytesLe i.id j.id).map Item.id).flatten =
      fnvHash ((g2.items.mergeSort fun i j => bytesLe i.id j.id).map Item.id).flatten
  rw [hms g1, hms g2, heq]

/-- C5 (amended): digest canonicality of the revision that sorts group
items by ID.  Two states whose groups induce the same multiset of
per-group item-ID multisets — i.e. regardless of the order of the groups
in `State.Groups` and of the order of items inside each group — have
equal `State.digest`. -/
theorem c5_digest_canonical (s1 s2 : State)
    (h : (s1.groups.map fun g => ((g.items.map Item.id : List (List ℕ)) : Multiset (List ℕ))).Perm
         (s2.groups.map fun g => ((g.items.map Item.id : List (List ℕ)) : Multiset (List ℕ)))) :
    State.digest s1 = State.digest s2 := by
  rcases exists_perm_of_map_perm
      (fun g : Group => ((g.items.map Item.id : List (List ℕ)) : Multiset (List ℕ)))
      (s2.groups.map fun g => ((g.items.map Item.id : List (List ℕ)) : Multiset (List ℕ)))
      s1.groups h with ⟨gs3, hp13, hmapeq⟩
  have hdig3 : gs3.map Group.digest = s2.groups.map Group.digest := by
    refine map_congr_of_map_eq ?_ gs3 s2.groups hmapeq
    intro a b hab
    exact groupDigest_eq_of_perm_ids a b (Multiset.coe_eq_coe.mp hab)
  have hdperm : (s1.groups.map Group.digest).Perm (s2.groups.map Group.digest) := by
    rw [← hdig3]
    exact hp13.map Group.digest
  have hsorted : ∀ l : List ℕ,
      List.Sorted (fun a b : ℕ => decide (a ≤ b) = true) (l.mergeSort fun a b => decide (a ≤ b)) :=
    fun l => List.sorted_mergeSort
      (fun a b c hab hbc => by
        simp only [decide_eq_true_eq] at hab hbc ⊢
        omega)
      (fun a b => by
        rcases Nat.le_total a b with h | h <;> simp [h]) l
  have heq : (s1.groups.map Group.digest).mergeSort (fun a b => decide (a ≤ b)) =
      (s2.groups.map Group.digest).mergeSort (fun a b => decide (a ≤ b)) := by
    refine @List.eq_of_perm_of_sorted _ _ ⟨?_⟩ _ _ ?_ (hsorted _) (hsorted _)
    · intro a b hab hba
      simp only [decide_eq_true_eq] at hab hba
      omega
    · exact ((List.mergeSort_perm _ _).trans hdperm).trans (List.mergeSort_perm _ _).symm
  unfold State.digest stateDigestWith
  rw [heq]

/-- Witness for C5's amended canonicality: two two-group states with both
the groups and the items inside a group permuted. -/
theorem c5_digest_canonical_witness :
    State.digest ⟨[⟨"g", 0, 2, [itA, itB]⟩, ⟨"h", 0, 2, []⟩], [], 0⟩ =
      State.digest ⟨[⟨"h", 0, 2, []⟩, ⟨"g", 0, 2, [itB, itA]⟩], [], 0⟩ :=
  c5_digest_canonical _ _ (by decide)

end Arrangeit

namespace Arrangeit

/-- C8 (amended): with a live `Relationship` rule, the run aborts fatally
(the Go panic) whenever the first generated state passes the minimum-size
screen, since scoring it must then walk the rules; this holds for every
fuel, i.e. the panic happens before the search loop proper. -/
theorem c8_relationship_aborts (pp : String → Option Point) (items : List Item)
    (rules : List Rule) (groups : List Group) (gs : List Group)
    (hval : validateInput items groups = true)
    (hrel : hasLiveRelationship rules = true)
    (hdist : distribute groups (applyPerm (List.replicate items.length 0) items) = some gs)
    (hfeas : meetsMinSizes gs = true) :
    ∀ fuel, run pp fuel items rules groups = RunResult.panicked := by
  intro fuel
  have hsc : CalculateScore pp items (populateNearnessTagPoints pp rules) rules
      ⟨gs, [], 0⟩ = none := by
    rw [CalculateScore]
    simp [State.IsTerminal, hfeas, CalculateCurrentScore, hrel]
  have h1 : stateFromPerm pp items (populateNearnessTagPoints pp rules) rules groups
      (List.replicate items.length 0) = GenOut.panic := by
    rw [stateFromPerm, hdist]
    dsimp only
    rw [hsc]
  rw [run, hval]
  simp only [Bool.not_true, Bool.false_eq_true, if_false, h1]

/-- Witness for C8's amended abort condition: two items, one feasible
group `[0, 4]`, one live `Relationship` rule — the run panics. -/
theorem c8_relationship_aborts_witness :
    run ppNone 3 [itA, itB] [⟨"t", RuleType.Relationship, 1⟩] [⟨"G1", 0, 4, []⟩] =
      RunResult.panicked :=
  c8_relationship_aborts ppNone [itA, itB] [⟨"t", RuleType.Relationship, 1⟩]
    [⟨"G1", 0, 4, []⟩] [⟨"G1", 0, 4, [itA, itB]⟩] (by decide) (by decide) rfl
    (by decide) 3

end Arrangeit

namespace Arrangeit

open List

/-! ## Multiset lemmas for the search moves (claim C1 machinery) -/

/-- Pulling the element at position `k` out of a list while writing `c`
into its slot is a permutation-preserving exchange. -/
theorem set_out_perm {α : Type} :
    ∀ (xs : List α) (k : ℕ) (b c : α), xs[k]? = some b →
      (b :: xs.set k c).Perm (c :: xs) := by
  intro xs
  induction xs with
  | nil => intro k b c h; simp at h
  | cons y ys ih =>
    intro k b c h
    cases k with
    | zero =>
      simp only [List.getElem?_cons_zero, Option.some.injEq] at h
      subst h
      exact List.Perm.swap c y ys
    | succ m =>
      simp only [List.getElem?_cons_succ] at h
      have hih := ih m b c h
      calc (b :: (y :: ys).set (m + 1) c) = b :: y :: ys.set m c := rfl
      _ ~ y :: b :: ys.set m c := List.Perm.swap y b _
      _ ~ y :: c :: ys := (hih).cons y
      _ ~ c :: y :: ys := List.Perm.swap c y ys

/-- Writing `b` at `i` and `a` at `j` permutes the list when `a`, `b`
were its entries at `i`, `j`. -/
theorem double_set_perm {α : Type} :
    ∀ (l : List α) (i j : ℕ) (a b : α), l[i]? = some a → l[j]? = some b →
      ((l.set i b).set j a).Perm l := by
  intro l
  induction l with
  | nil => intro i j a b h _; simp at h
  | cons x xs ih =>
    intro i j a b hi hj
    cases i with
    | zero =>
      simp only [List.getElem?_cons_zero, Option.some.injEq] at hi
      subst hi
      cases j with
      | zero =>
        simp only [List.getElem?_cons_zero, Option.some.injEq] at hj
        subst hj
        simp
      | succ m =>
        simp only [List.getElem?_cons_succ] at hj
        calc ((x :: xs).set 0 b).set (m + 1) x = b :: xs.set m x := rfl
        _ ~ x :: xs := set_out_perm xs m b x hj
    | succ n =>
      simp only [List.getElem?_cons_succ] at hi
      cases j with
      | zero =>
        simp only [List.getElem?_cons_zero, Option.some.injEq] at hj
        subst hj
        calc ((x :: xs).set (n + 1) x).set 0 a = a :: xs.set n x := rfl
        _ ~ x :: xs := set_out_perm xs n a x hi
      | succ m =>
        simp only [List.getElem?_cons_succ] at hj
        exact ((ih n m a b hi hj).cons x)

/-- `swapIdx` preserves the multiset of the list. -/
theorem swapIdx_perm (l : List Item) (i j : ℕ) : (swapIdx l i j).Perm l := by
  rw [swapIdx]
  cases hi : l[i]? with
  | none => exact List.Perm.refl l
  | some a =>
    cases hj : l[j]? with
    | none => exact List.Perm.refl l
    | some b => exact double_set_perm l i j a b hi hj

/-- Applying the permutation counter preserves the multiset of items. -/
theorem applyPerm_perm (pc : List ℕ) (items : List Item) :
    (applyPerm pc items).Perm items := by
  rw [applyPerm]
  generalize pc.enum = ps
  induction ps generalizing items with
  | nil => exact List.Perm.refl items
  | cons p ps ih =>
    calc ((p :: ps).foldl (fun l iv => swapIdx l iv.1 (iv.1 + iv.2)) items)
        = ps.foldl (fun l iv => swapIdx l iv.1 (iv.1 + iv.2)) (swapIdx items p.1 (p.1 + p.2)) :=
          rfl
    _ ~ swapIdx items p.1 (p.1 + p.2) := ih _
    _ ~ items := swapIdx_perm items p.1 (p.1 + p.2)

end Arrangeit

namespace Arrangeit

open List

/-- Rearranging lemma: a block may travel across another block inside an
append chain, up to permutation. -/
theorem perm_shift_block {α : Type} (T G D : List α) :
    (T ++ (G ++ D)).Perm (G ++ (T ++ D)) := by
  calc T ++ (G ++ D) = (T ++ G) ++ D := (List.append_assoc T G D).symm
  _ ~ (G ++ T) ++ D := List.perm_append_comm.append_right D
  _ = G ++ (T ++ D) := List.append_assoc G T D

/-- The `MinSize` filling pass conserves the multiset of items (groups'
contents plus leftover items). -/
theorem fillMins_perm :
    ∀ (gs : List Group) (xs : List Item),
      ((((fillMins gs xs).1.map Group.items).flatten) ++ (fillMins gs xs).2).Perm
        (((gs.map Group.items).flatten) ++ xs) := by
  intro gs
  induction gs with
  | nil => intro xs; simp [fillMins]
  | cons g gs ih =>
    intro xs
    rw [fillMins]
    dsimp only
    calc ((g.items ++ xs.take ((g.minSize - (g.items.length : ℤ)).toNat)) ++
            ((fillMins gs (xs.drop ((g.minSize - (g.items.length : ℤ)).toNat))).1.map
              Group.items).flatten) ++
          (fillMins gs (xs.drop ((g.minSize - (g.items.length : ℤ)).toNat))).2
        = g.items ++ (xs.take ((g.minSize - (g.items.length : ℤ)).toNat) ++
            (((fillMins gs (xs.drop ((g.minSize - (g.items.length : ℤ)).toNat))).1.map
              Group.items).flatten ++
              (fillMins gs (xs.drop ((g.minSize - (g.items.length : ℤ)).toNat))).2)) := by
          simp only [List.append_assoc]
    _ ~ g.items ++ (xs.take ((g.minSize - (g.items.length : ℤ)).toNat) ++
          (((gs.map Group.items).flatten) ++
            xs.drop ((g.minSize - (g.items.length : ℤ)).toNat))) :=
          Perm.append_left g.items (Perm.append_left _ (ih _))
    _ ~ g.items ++ (((gs.map Group.items).flatten) ++
          (xs.take ((g.minSize - (g.items.length : ℤ)).toNat) ++
            xs.drop ((g.minSize - (g.items.length : ℤ)).toNat))) :=
          Perm.append_left g.items (perm_shift_block _ _ _)
    _ = g.items ++ (((gs.map Group.items).flatten) ++ xs) := by
          rw [List.take_append_drop]
    _ = (((g :: gs).map Group.items).flatten) ++ xs := by
          simp [List.append_assoc]

end Arrangeit

namespace Arrangeit

open List

/-- One round-robin pass conserves the multiset of items. -/
theorem rrPass_perm :
    ∀ (gs : List Group) (xs : List Item),
      ((((rrPass gs xs).1.map Group.items).flatten) ++ (rrPass gs xs).2).Perm
        (((gs.map Group.items).flatten) ++ xs) := by
  intro gs
  induction gs with
  | nil => intro xs; simp [rrPass]
  | cons g gs ih =>
    intro xs
    cases xs with
    | nil => simp [rrPass]
    | cons x xs =>
      rw [rrPass]
      by_cases hmax : ((g.items.length : ℤ) = g.maxSize)
      · rw [if_pos (by simpa using hmax)]
        dsimp only
        calc (g.items ++ ((rrPass gs (x :: xs)).1.map Group.items).flatten) ++
              (rrPass gs (x :: xs)).2
            = g.items ++ (((rrPass gs (x :: xs)).1.map Group.items).flatten ++
                (rrPass gs (x :: xs)).2) := by simp [List.append_assoc]
        _ ~ g.items ++ ((gs.map Group.items).flatten ++ (x :: xs)) :=
              Perm.append_left g.items (ih (x :: xs))
        _ = (((g :: gs).map Group.items).flatten) ++ (x :: xs) := by
              simp [List.append_assoc]
      · rw [if_neg (by simpa using hmax)]
        dsimp only
        calc ((g.items ++ [x]) ++ ((rrPass gs xs).1.map Group.items).flatten) ++
              (rrPass gs xs).2
            = g.items ++ ([x] ++ (((rrPass gs xs).1.map Group.items).flatten ++
                (rrPass gs xs).2)) := by simp [List.append_assoc]
        _ ~ g.items ++ ([x] ++ ((gs.map Group.items).flatten ++ xs)) :=
              Perm.append_left g.items (Perm.append_left [x] (ih xs))
        _ ~ g.items ++ ((gs.map Group.items).flatten ++ ([x] ++ xs)) :=
              Perm.append_left g.items (perm_shift_block [x] _ xs)
        _ = (((g :: gs).map Group.items).flatten) ++ (x :: xs) := by
              simp [List.append_assoc]

/-- The round-robin loop, when it terminates, packs exactly the leftover
items into the groups. -/
theorem rrLoop_perm :
    ∀ (fuel : ℕ) (gs : List Group) (xs : List Item) (gs2 : List Group),
      rrLoop fuel gs xs = some gs2 →
      ((gs2.map Group.items).flatten).Perm (((gs.map Group.items).flatten) ++ xs) := by
  intro fuel
  induction fuel with
  | zero => intro gs xs gs2 h; exact absurd h (by simp [rrLoop])
  | succ n ih =>
    intro gs xs gs2 h
    cases xs with
    | nil =>
      rw [rrLoop] at h
      injection h with h
      subst h
      simp
    | cons x xs =>
      rw [rrLoop] at h
      have := ih _ _ _ h
      exact this.trans (rrPass_perm gs (x :: xs))

/-- Fresh (template) groups carry no items. -/
theorem freshGroups_flatten (groups : List Group) :
    (((freshGroups groups).map Group.items).flatten) = [] := by
  induction groups with
  | nil => rfl
  | cons g gs ih => simp only [freshGroups] at ih ⊢; simp [ih]

/-- A successful scatter of `getRandomState` distributes exactly the given
items over the groups. -/
theorem distribute_perm (groups : List Group) (xs : List Item) (gs2 : List Group)
    (h : distribute groups xs = some gs2) :
    ((gs2.map Group.items).flatten).Perm xs := by
  rw [distribute] at h
  have h2 := rrLoop_perm _ _ _ _ h
  have h3 := fillMins_perm (freshGroups groups) xs
  rw [freshGroups_flatten] at h3
  simpa using h2.trans h3

/-- A state generated from a permutation counter holds exactly the run's
items, each exactly once, and has no unplaced items. -/
theorem stateFromPerm_inv (pp : String → Option Point) (items : List Item)
    (near : Item → String → Option Point) (rules : List Rule) (groups : List Group)
    (pc : List ℕ) (s : State) (pc2 : List ℕ)
    (h : stateFromPerm pp items near rules groups pc = GenOut.next s pc2) :
    ((s.groups.map Group.items).flatten).Perm items ∧ s.itemsNotInGroups = [] := by
  rw [stateFromPerm] at h
  cases hd : distribute groups (applyPerm pc items) with
  | none => rw [hd] at h; exact absurd h (by simp)
  | some gs =>
    rw [hd] at h
    dsimp only at h
    cases hs : CalculateScore pp items near rules
        { groups := gs, itemsNotInGroups := [], score := 0 } with
    | none => rw [hs] at h; exact absurd h (by simp)
    | some q =>
      rw [hs] at h
      injection h with h1 _
      subst h1
      exact ⟨(distribute_perm groups _ gs hd).trans (applyPerm_perm pc items), rfl⟩

end Arrangeit

namespace Arrangeit

open List

/-- The relocate deletion (`overwrite slot i with the last item, drop the
last slot`) removes exactly the item at `i`, as multisets. -/
theorem set_dropLast_perm (l : List Item) (i : ℕ) (x lastIt : Item)
    (hx : l[i]? = some x) (hlast : l.getLast? = some lastIt) :
    l.Perm (x :: (l.set i lastIt).dropLast) := by
  rcases List.getLast?_eq_some_iff.mp hlast with ⟨m, hm⟩
  subst hm
  have hi : i < m.length + 1 := by
    have := List.getElem?_eq_some_iff.mp hx
    simpa using this.1
  rcases Nat.lt_or_ge i m.length with hlt | hge
  · have hset : (m ++ [lastIt]).set i lastIt = m.set i lastIt ++ [lastIt] :=
      List.set_append_left i lastIt hlt
    have hxm : m[i]? = some x := by
      rw [@List.getElem?_append _ m [lastIt] i, if_pos hlt] at hx
      exact hx
    rw [hset, List.dropLast_concat]
    calc m ++ [lastIt] ~ [lastIt] ++ m := List.perm_append_comm
    _ = lastIt :: m := rfl
    _ ~ x :: m.set i lastIt := (set_out_perm m i x lastIt hxm).symm
  · have hieq : i = m.length := by omega
    subst hieq
    have hxlast : x = lastIt := by
      rw [List.getElem?_append_right (le_refl m.length)] at hx
      simpa using hx.symm
    subst hxlast
    have hset : (m ++ [x]).set m.length x = m ++ [x] := by
      rw [List.set_append, if_neg (lt_irrefl _)]
      simp
    rw [hset, List.dropLast_concat]
    calc m ++ [x] ~ [x] ++ m := List.perm_append_comm
    _ = x :: m := rfl

/-- Exchanging the entries at `i` and `i2` of two lists conserves the
combined multiset. -/
theorem set_exchange_perm (A B : List Item) (i i2 : ℕ) (x y : Item)
    (hx : A[i]? = some x) (hy : B[i2]? = some y) :
    ((A.set i y) ++ (B.set i2 x)).Perm (A ++ B) := by
  have h1 : (x :: A.set i y).Perm (y :: A) := set_out_perm A i x y hx
  have h2 : (y :: B.set i2 x).Perm (x :: B) := set_out_perm B i2 y x hy
  have key : (x :: y :: (A.set i y ++ B.set i2 x)).Perm (x :: y :: (A ++ B)) := by
    calc x :: y :: (A.set i y ++ B.set i2 x)
        ~ x :: (A.set i y ++ y :: B.set i2 x) := (List.Perm.cons x List.perm_middle).symm
    _ = (x :: A.set i y) ++ (y :: B.set i2 x) := rfl
    _ ~ (y :: A) ++ (x :: B) := h1.append h2
    _ = y :: (A ++ x :: B) := rfl
    _ ~ y :: x :: (A ++ B) := List.Perm.cons y List.perm_middle
    _ ~ x :: y :: (A ++ B) := List.Perm.swap x y _
  exact (key.cons_inv).cons_inv

/-- Updating position `i` of a group list changes the flattened item
multiset only by the swap of the old group's items for the new ones. -/
theorem flatten_set_swap :
    ∀ (l : List Group) (i : ℕ) (B B2 : Group), l[i]? = some B →
      ((((l.set i B2).map Group.items).flatten) ++ B.items).Perm
        (((l.map Group.items).flatten) ++ B2.items) := by
  intro l
  induction l with
  | nil => intro i B B2 h; simp at h
  | cons x xs ih =>
    intro i B B2 h
    cases i with
    | zero =>
      simp only [List.getElem?_cons_zero, Option.some.injEq] at h
      subst h
      calc ((((x :: xs).set 0 B2).map Group.items).flatten) ++ x.items
          = B2.items ++ ((xs.map Group.items).flatten ++ x.items) := by
            simp [List.append_assoc]
      _ ~ ((xs.map Group.items).flatten ++ x.items) ++ B2.items := List.perm_append_comm
      _ ~ (x.items ++ (xs.map Group.items).flatten) ++ B2.items :=
            (List.perm_append_comm.append_right _)
      _ = (((x :: xs).map Group.items).flatten) ++ B2.items := by
            simp [List.append_assoc]
    | succ n =>
      simp only [List.getElem?_cons_succ] at h
      calc ((((x :: xs).set (n + 1) B2).map Group.items).flatten) ++ B.items
          = x.items ++ (((xs.set n B2).map Group.items).flatten ++ B.items) := by
            simp [List.append_assoc]
      _ ~ x.items ++ ((xs.map Group.items).flatten ++ B2.items) :=
            Perm.append_left x.items (ih n B B2 h)
      _ = (((x :: xs).map Group.items).flatten) ++ B2.items := by
            simp [List.append_assoc]

/-- Cancel permuted right parts of append permutations. -/
theorem perm_of_append_perm {α : Type} (X Z u v : List α)
    (huv : u.Perm v) (h : (X ++ u).Perm (Z ++ v)) : X.Perm Z := by
  have h2 : (X ++ u).Perm (Z ++ u) := h.trans (Perm.append_left Z huv.symm)
  exact (List.perm_append_right_iff u).mp h2

end Arrangeit

namespace Arrangeit

open List

/-- A relocate move conserves the flattened item multiset and the
unplaced items. -/
theorem relocateMove_flatten (src : State) (g1 i g2 : ℕ) (hne : g1 ≠ g2) :
    ((((relocateMove src g1 i g2).groups.map Group.items).flatten).Perm
        ((src.groups.map Group.items).flatten)) ∧
      (relocateMove src g1 i g2).itemsNotInGroups = src.itemsNotInGroups := by
  rw [relocateMove]
  cases h1 : src.groups[g1]? with
  | none => exact ⟨List.Perm.refl _, rfl⟩
  | some gA =>
    cases h2 : src.groups[g2]? with
    | none => exact ⟨List.Perm.refl _, rfl⟩
    | some gB =>
      dsimp only
      cases hx : gA.items[i]? with
      | none => cases gA.items.getLast? <;> exact ⟨List.Perm.refl _, rfl⟩
      | some x =>
        cases hlast : gA.items.getLast? with
        | none => exact ⟨List.Perm.refl _, rfl⟩
        | some lastIt =>
          dsimp only
          refine ⟨?_, rfl⟩
          have h2b : (src.groups.set g1 { gA with items := (gA.items.set i lastIt).dropLast })[g2]? =
              some gB := by
            rw [List.getElem?_set_ne hne]
            exact h2
          have houter := flatten_set_swap (src.groups.set g1
              { gA with items := (gA.items.set i lastIt).dropLast }) g2 gB
              { gB with items := gB.items ++ [x] } h2b
          have hinner := flatten_set_swap src.groups g1 gA
              { gA with items := (gA.items.set i lastIt).dropLast } h1
          have hA : gA.items.Perm (x :: (gA.items.set i lastIt).dropLast) :=
            set_dropLast_perm gA.items i x lastIt hx hlast
          have huv : (gB.items ++ gA.items).Perm
              ((gA.items.set i lastIt).dropLast ++ (gB.items ++ [x])) := by
            calc gB.items ++ gA.items
                ~ gB.items ++ (x :: (gA.items.set i lastIt).dropLast) :=
                  Perm.append_left _ hA
            _ ~ (x :: (gA.items.set i lastIt).dropLast) ++ gB.items := List.perm_append_comm
            _ = x :: ((gA.items.set i lastIt).dropLast ++ gB.items) := rfl
            _ ~ ((gA.items.set i lastIt).dropLast ++ gB.items) ++ [x] := by
                  exact @List.perm_append_comm _ [x] _
            _ = (gA.items.set i lastIt).dropLast ++ (gB.items ++ [x]) :=
                  List.append_assoc _ _ _
          refine perm_of_append_perm _ _ _ _ huv ?_
          calc (((src.groups.set g1 { gA with items := (gA.items.set i lastIt).dropLast }).set g2
                  { gB with items := gB.items ++ [x] }).map Group.items).flatten ++
                (gB.items ++ gA.items)
              = ((((src.groups.set g1 { gA with items := (gA.items.set i lastIt).dropLast }).set g2
                  { gB with items := gB.items ++ [x] }).map Group.items).flatten ++
                gB.items) ++ gA.items := (List.append_assoc _ _ _).symm
          _ ~ (((src.groups.set g1 { gA with items := (gA.items.set i lastIt).dropLast }).map
                  Group.items).flatten ++ (gB.items ++ [x])) ++ gA.items :=
                houter.append_right _
          _ ~ (((src.groups.set g1 { gA with items := (gA.items.set i lastIt).dropLast }).map
                  Group.items).flatten ++ (gA.items ++ (gB.items ++ [x]))) := by
                rw [List.append_assoc]
                exact Perm.append_left _ List.perm_append_comm
          _ = ((((src.groups.set g1 { gA with items := (gA.items.set i lastIt).dropLast }).map
                  Group.items).flatten ++ gA.items) ++ (gB.items ++ [x])) :=
                (List.append_assoc _ _ _).symm
          _ ~ ((src.groups.map Group.items).flatten ++
                  (gA.items.set i lastIt).dropLast) ++ (gB.items ++ [x]) :=
                hinner.append_right _
          _ = (src.groups.map Group.items).flatten ++
                ((gA.items.set i lastIt).dropLast ++ (gB.items ++ [x])) :=
                List.append_assoc _ _ _

/-- A swap move conserves the flattened item multiset and the unplaced
items. -/
theorem swapMove_flatten (src : State) (g1 i g2 i2 : ℕ) (hne : g1 ≠ g2) :
    ((((swapMove src g1 i g2 i2).groups.map Group.items).flatten).Perm
        ((src.groups.map Group.items).flatten)) ∧
      (swapMove src g1 i g2 i2).itemsNotInGroups = src.itemsNotInGroups := by
  rw [swapMove]
  cases h1 : src.groups[g1]? with
  | none => exact ⟨List.Perm.refl _, rfl⟩
  | some gA =>
    cases h2 : src.groups[g2]? with
    | none => exact ⟨List.Perm.refl _, rfl⟩
    | some gB =>
      dsimp only
      cases hx : gA.items[i]? with
      | none => cases gB.items[i2]? <;> exact ⟨List.Perm.refl _, rfl⟩
      | some x =>
        cases hy : gB.items[i2]? with
        | none => exact ⟨List.Perm.refl _, rfl⟩
        | some y =>
          dsimp only
          refine ⟨?_, rfl⟩
          have h2b : (src.groups.set g1 { gA with items := gA.items.set i y })[g2]? =
              some gB := by
            rw [List.getElem?_set_ne hne]
            exact h2
          have houter := flatten_set_swap (src.groups.set g1
              { gA with items := gA.items.set i y }) g2 gB
              { gB with items := gB.items.set i2 x } h2b
          have hinner := flatten_set_swap src.groups g1 gA
              { gA with items := gA.items.set i y } h1
          have huv : (gB.items ++ gA.items).Perm
              (gA.items.set i y ++ gB.items.set i2 x) := by
            calc gB.items ++ gA.items ~ gA.items ++ gB.items := List.perm_append_comm
            _ ~ gA.items.set i y ++ gB.items.set i2 x :=
                  (set_exchange_perm gA.items gB.items i i2 x y hx hy).symm
          refine perm_of_append_perm _ _ _ _ huv ?_
          calc (((src.groups.set g1 { gA with items := gA.items.set i y }).set g2
                  { gB with items := gB.items.set i2 x }).map Group.items).flatten ++
                (gB.items ++ gA.items)
              = ((((src.groups.set g1 { gA with items := gA.items.set i y }).set g2
                  { gB with items := gB.items.set i2 x }).map Group.items).flatten ++
                gB.items) ++ gA.items := (List.append_assoc _ _ _).symm
          _ ~ (((src.groups.set g1 { gA with items := gA.items.set i y }).map
                  Group.items).flatten ++ gB.items.set i2 x) ++ gA.items :=
                houter.append_right _
          _ ~ (((src.groups.set g1 { gA with items := gA.items.set i y }).map
                  Group.items).flatten ++ (gA.items ++ gB.items.set i2 x)) := by
                rw [List.append_assoc]
                exact Perm.append_left _ List.perm_append_comm
          _ = ((((src.groups.set g1 { gA with items := gA.items.set i y }).map
                  Group.items).flatten ++ gA.items) ++ gB.items.set i2 x) :=
                (List.append_assoc _ _ _).symm
          _ ~ ((src.groups.map Group.items).flatten ++ gA.items.set i y) ++
                gB.items.set i2 x :=
                hinner.append_right _
          _ = (src.groups.map Group.items).flatten ++
                (gA.items.set i y ++ gB.items.set i2 x) :=
                List.append_assoc _ _ _

end Arrangeit

namespace Arrangeit

open List

/-- A relocate move into a group with room preserves the capacity upper
bound of every group. -/
theorem relocateMove_len (src : State) (g1 i g2 : ℕ)
    (hroom : (groupLen src g2 : ℤ) < groupMax src g2)
    (hcap : ∀ g ∈ src.groups, (g.items.length : ℤ) ≤ g.maxSize) :
    ∀ g ∈ (relocateMove src g1 i g2).groups, (g.items.length : ℤ) ≤ g.maxSize := by
  rw [relocateMove]
  cases h1 : src.groups[g1]? with
  | none => exact hcap
  | some gA =>
    cases h2 : src.groups[g2]? with
    | none => exact hcap
    | some gB =>
      dsimp only
      cases hx : gA.items[i]? with
      | none => cases gA.items.getLast? <;> exact hcap
      | some x =>
        cases hlast : gA.items.getLast? with
        | none => exact hcap
        | some lastIt =>
          dsimp only
          intro g hg
          rcases List.mem_or_eq_of_mem_set hg with hg2 | hg2
          · rcases List.mem_or_eq_of_mem_set hg2 with hg3 | hg3
            · exact hcap g hg3
            · subst hg3
              have hA : (gA.items.length : ℤ) ≤ gA.maxSize :=
                hcap gA (List.getElem?_mem h1)
              have hlen : ((gA.items.set i lastIt).dropLast).length =
                  gA.items.length - 1 := by
                rw [List.length_dropLast, List.length_set]
              dsimp only
              rw [hlen]
              have : ((gA.items.length - 1 : ℕ) : ℤ) ≤ (gA.items.length : ℤ) := by
                omega
              exact le_trans this hA
          · subst hg2
            have hB : (gB.items.length : ℤ) < gB.maxSize := by
              have : groupLen src g2 = gB.items.length := by rw [groupLen, h2]
              have hmax : groupMax src g2 = gB.maxSize := by rw [groupMax, h2]
              rw [this, hmax] at hroom
              exact hroom
            dsimp only
            simp only [List.length_append, List.length_singleton]
            push_cast
            omega

/-- A swap move preserves the capacity upper bound of every group. -/
theorem swapMove_len (src : State) (g1 i g2 i2 : ℕ)
    (hcap : ∀ g ∈ src.groups, (g.items.length : ℤ) ≤ g.maxSize) :
    ∀ g ∈ (swapMove src g1 i g2 i2).groups, (g.items.length : ℤ) ≤ g.maxSize := by
  rw [swapMove]
  cases h1 : src.groups[g1]? with
  | none => exact hcap
  | some gA =>
    cases h2 : src.groups[g2]? with
    | none => exact hcap
    | some gB =>
      dsimp only
      cases hx : gA.items[i]? with
      | none => cases gB.items[i2]? <;> exact hcap
      | some x =>
        cases hy : gB.items[i2]? with
        | none => exact hcap
        | some y =>
          dsimp only
          intro g hg
          rcases List.mem_or_eq_of_mem_set hg with hg2 | hg2
          · rcases List.mem_or_eq_of_mem_set hg2 with hg3 | hg3
            · exact hcap g hg3
            · subst hg3
              have hA : (gA.items.length : ℤ) ≤ gA.maxSize :=
                hcap gA (List.getElem?_mem h1)
              dsimp only
              rw [List.length_set]
              exact hA
          · subst hg2
            have hB : (gB.items.length : ℤ) ≤ gB.maxSize :=
              hcap gB (List.getElem?_mem h2)
            dsimp only
            rw [List.length_set]
            exact hB

/-- Every candidate neighbour conserves the flattened item multiset and
the unplaced items. -/
theorem candidateMoves_flatten (src : State) (c : State) (hc : c ∈ candidateMoves src) :
    (((c.groups.map Group.items).flatten).Perm
        ((src.groups.map Group.items).flatten)) ∧
      c.itemsNotInGroups = src.itemsNotInGroups := by
  simp only [candidateMoves, List.mem_flatMap, List.mem_range] at hc
  rcases hc with ⟨g1, _, i, _, g2, _, hcin⟩
  by_cases h12 : g1 = g2
  · simp [h12] at hcin
  · rw [if_neg h12] at hcin
    by_cases hroom : (groupLen src g2 : ℤ) < groupMax src g2
    · rw [if_pos hroom] at hcin
      rcases List.mem_singleton.mp hcin with rfl
      exact relocateMove_flatten src g1 i g2 h12
    · rw [if_neg hroom] at hcin
      rcases List.mem_map.mp hcin with ⟨i2, _, rfl⟩
      exact swapMove_flatten src g1 i g2 i2 h12

/-- Every candidate neighbour preserves the capacity upper bound. -/
theorem candidateMoves_len (src : State) (c : State)
    (hcap : ∀ g ∈ src.groups, (g.items.length : ℤ) ≤ g.maxSize)
    (hc : c ∈ candidateMoves src) :
    ∀ g ∈ c.groups, (g.items.length : ℤ) ≤ g.maxSize := by
  simp only [candidateMoves, List.mem_flatMap, List.mem_range] at hc
  rcases hc with ⟨g1, _, i, _, g2, _, hcin⟩
  by_cases h12 : g1 = g2
  · simp [h12] at hcin
  · rw [if_neg h12] at hcin
    by_cases hroom : (groupLen src g2 : ℤ) < groupMax src g2
    · rw [if_pos hroom] at hcin
      rcases List.mem_singleton.mp hcin with rfl
      exact relocateMove_len src g1 i g2 hroom hcap
    · rw [if_neg hroom] at hcin
      rcases List.mem_map.mp hcin with ⟨i2, _, rfl⟩
      exact swapMove_len src g1 i g2 i2 hcap

end Arrangeit

namespace Arrangeit

open List

/-- The best-neighbour fold returns a state satisfying any property that
holds for the source, for every candidate, and is untouched by score
updates. -/
theorem getBestNextStateFrom_inv (pp : String → Option Point) (items : List Item)
    (near : Item → String → Option Point) (rules : List Rule) (P : State → Prop)
    (hscore : ∀ s q, P s → P { s with score := q })
    (src t : State) (hsrc : P src)
    (hcands : ∀ c ∈ candidateMoves src, P c)
    (h : getBestNextStateFrom pp items near rules src = some t) : P t := by
  rw [getBestNextStateFrom] at h
  have main : ∀ (cands : List State) (acc : State), P acc → (∀ c ∈ cands, P c) →
      cands.foldlM
        (fun best cand =>
          match CalculateScore pp items near rules cand with
          | none => none
          | some q => some (if best.score < q then { cand with score := q } else best))
        acc = some t → P t := by
    intro cands
    induction cands with
    | nil =>
      intro acc hacc _ hfold
      rw [List.foldlM_nil] at hfold
      injection hfold with hfold
      subst hfold
      exact hacc
    | cons c cs ih =>
      intro acc hacc hall hfold
      rw [List.foldlM_cons] at hfold
      cases hs : CalculateScore pp items near rules c with
      | none => rw [hs] at hfold; exact absurd hfold (by simp)
      | some q =>
        rw [hs] at hfold
        simp only [Option.bind_eq_bind, Option.some_bind] at hfold
        refine ih _ ?_ (fun c2 h2 => hall c2 (List.mem_cons_of_mem _ h2)) hfold
        by_cases hlt : acc.score < q
        · rw [if_pos hlt]
          exact hscore c q (hall c (List.mem_cons_self _ _))
        · rw [if_neg hlt]
          exact hacc
  exact main _ src hsrc hcands h

/-- Any property of states that is established by every fresh
`getRandomState` state and preserved by the hill-climbing step holds for
the groups that a successful run returns. -/
theorem runLoop_ok_inv (pp : String → Option Point) (items : List Item)
    (near : Item → String → Option Point) (rules : List Rule) (groups : List Group)
    (P : State → Prop)
    (hgen : ∀ pc s pc2, nextRandomState pp items near rules groups pc = GenOut.next s pc2 → P s)
    (hclimb : ∀ s t, P s → getBestNextStateFrom pp items near rules s = some t → P t) :
    ∀ (fuel : ℕ) (next : State) (pc tried : List ℕ) (best : State) (gs : List Group),
      P next → P best →
      runLoop pp items near rules groups fuel next pc tried best = RunResult.ok gs →
      ∃ s, P s ∧ gs = s.groups := by
  intro fuel
  induction fuel with
  | zero => intro _ _ _ _ _ _ _ h; exact absurd h (by simp [runLoop])
  | succ n ih =>
    intro next pc tried best gs hnext hbest h
    rw [runLoop] at h
    by_cases hseen : tried.contains (State.digest next) = true
    · rw [if_pos hseen] at h
      cases hgn : nextRandomState pp items near rules groups pc with
      | exhausted =>
        rw [hgn] at h
        injection h with h
        exact ⟨best, hbest, h.symm⟩
      | panic => rw [hgn] at h; exact absurd h (by simp)
      | diverge => rw [hgn] at h; exact absurd h (by simp)
      | next s pc2 =>
        rw [hgn] at h
        exact ih s pc2 tried best gs (hgen pc s pc2 hgn) hbest h
    · rw [if_neg hseen] at h
      dsimp only at h
      cases hgb : getBestNextStateFrom pp items near rules next with
      | none => rw [hgb] at h; exact absurd h (by simp)
      | some bo =>
        rw [hgb] at h
        dsimp only at h
        by_cases himp : next.score < bo.score
        · rw [if_pos himp] at h
          exact ih bo pc _ best gs (hclimb next bo hnext hgb) hbest h
        · rw [if_neg himp] at h
          have hbest2 : P (if best.score < next.score then next else best) := by
            by_cases hb : best.score < next.score
            · rw [if_pos hb]; exact hnext
            · rw [if_neg hb]; exact hbest
          cases hgn : nextRandomState pp items near rules groups pc with
          | exhausted =>
            rw [hgn] at h
            injection h with h
            exact ⟨_, hbest2, h.symm⟩
          | panic => rw [hgn] at h; exact absurd h (by simp)
          | diverge => rw [hgn] at h; exact absurd h (by simp)
          | next s pc2 =>
            rw [hgn] at h
            exact ih s pc2 _ _ gs (hgen pc s pc2 hgn) hbest2 h

end Arrangeit

namespace Arrangeit

open List

/-- C1: the partition invariant.  Every successful `run` (the engine
behind `GetArrangement`) returns groups whose item lists together form
exactly the input item list as a multiset — no item is dropped and none
is duplicated.  The proof establishes it for the initial state produced by
`getRandomState` (every restart) and shows every relocate/swap neighbour
move of `getBestNextStateFrom` preserves it. -/
theorem c1_partition_invariant (pp : String → Option Point) (fuel : ℕ)
    (items : List Item) (rules : List Rule) (groups : List Group) (gs : List Group)
    (h : run pp fuel items rules groups = RunResult.ok gs) :
    ((gs.map Group.items).flatten).Perm items := by
  classical
  rw [run] at h
  by_cases hv : validateInput items groups = true
  · rw [hv] at h
    simp only [Bool.not_true, Bool.false_eq_true, if_false] at h
    set near := populateNearnessTagPoints pp rules with hnear
    cases hsf : stateFromPerm pp items near rules groups (List.replicate items.length 0) with
    | diverge => rw [hsf] at h; exact absurd h (by simp)
    | exhausted => rw [hsf] at h; exact absurd h (by simp)
    | panic => rw [hsf] at h; exact absurd h (by simp)
    | next s0 pc0 =>
      rw [hsf] at h
      have hP0 := stateFromPerm_inv pp items near rules groups _ s0 pc0 hsf
      have hmain := runLoop_ok_inv pp items near rules groups
        (fun s => (((s.groups.map Group.items).flatten).Perm items) ∧
          s.itemsNotInGroups = [])
        (by
          intro pc s pc2 hg
          rw [nextRandomState] at hg
          cases hip : incPerm pc with
          | none => rw [hip] at hg; exact absurd hg (by simp)
          | some pc3 =>
            rw [hip] at hg
            exact stateFromPerm_inv pp items near rules groups pc3 s pc2 hg)
        (by
          intro s t hs hbt
          refine getBestNextStateFrom_inv pp items near rules
            (fun s2 => (((s2.groups.map Group.items).flatten).Perm items) ∧
              s2.itemsNotInGroups = []) ?_ s t hs ?_ hbt
          · intro s2 q hs2
            exact hs2
          · intro c hc
            have hcf := candidateMoves_flatten s c hc
            exact ⟨hcf.1.trans hs.1, hcf.2.trans hs.2⟩)
        fuel s0 pc0 [] s0 gs hP0 hP0 h
      rcases hmain with ⟨s, hPs, rfl⟩
      exact hPs.1
  · rw [Bool.not_eq_true] at hv
    rw [hv] at h
    exact absurd h (by simp)

/-- Witness for C1 at a concrete successful run: two items distributed
into one group come back exactly once each. -/
theorem c1_partition_invariant_witness :
    ((([⟨"G1", 0, 4, [itA, itB]⟩] : List Group).map Group.items).flatten).Perm [itA, itB] :=
  c1_partition_invariant ppNone 10 [itA, itB] [] [⟨"G1", 0, 4, []⟩]
    [⟨"G1", 0, 4, [itA, itB]⟩] rfl

end Arrangeit

namespace Arrangeit

open List

/-- The `MinSize` filling pass respects `MaxSize` when the templates are
fresh (empty) and well-formed (`0 ≤ MinSize ≤ MaxSize`). -/
theorem fillMins_len :
    ∀ (gs : List Group) (xs : List Item),
      (∀ g ∈ gs, g.items = [] ∧ 0 ≤ g.minSize ∧ g.minSize ≤ g.maxSize) →
      ∀ g ∈ (fillMins gs xs).1, (g.items.length : ℤ) ≤ g.maxSize := by
  intro gs
  induction gs with
  | nil => intro xs _ g hg; simp [fillMins] at hg
  | cons g0 gs ih =>
    intro xs hgs g hg
    rw [fillMins] at hg
    dsimp only at hg
    rcases List.mem_cons.mp hg with hg1 | hg1
    · subst hg1
      rcases hgs g0 (List.mem_cons_self _ _) with ⟨hempty, hmin0, hminmax⟩
      dsimp only
      rw [hempty]
      simp only [List.nil_append, List.length_nil, Nat.cast_zero, sub_zero]
      have hlen : (xs.take g0.minSize.toNat).length ≤ g0.minSize.toNat :=
        List.length_take_le _ _
      have h1 : ((xs.take g0.minSize.toNat).length : ℤ) ≤ (g0.minSize.toNat : ℤ) := by
        exact_mod_cast hlen
      have h2 : (g0.minSize.toNat : ℤ) = g0.minSize := Int.toNat_of_nonneg hmin0
      omega
    · exact ih _ (fun g2 h2 => hgs g2 (List.mem_cons_of_mem _ h2)) g hg1

/-- A round-robin pass preserves the capacity upper bound. -/
theorem rrPass_len :
    ∀ (gs : List Group) (xs : List Item),
      (∀ g ∈ gs, (g.items.length : ℤ) ≤ g.maxSize) →
      ∀ g ∈ (rrPass gs xs).1, (g.items.length : ℤ) ≤ g.maxSize := by
  intro gs
  induction gs with
  | nil => intro xs h g hg; rw [rrPass] at hg; exact absurd hg (by simp)
  | cons g0 gs ih =>
    intro xs h g hg
    cases xs with
    | nil =>
      rw [rrPass] at hg
      exact h g hg
    | cons x xs =>
      rw [rrPass] at hg
      by_cases hmax : ((g0.items.length : ℤ) = g0.maxSize)
      · rw [if_pos (by simpa using hmax)] at hg
        dsimp only at hg
        rcases List.mem_cons.mp hg with hg1 | hg1
        · subst hg1; exact h g (List.mem_cons_self _ _)
        · exact ih (x :: xs) (fun g2 h2 => h g2 (List.mem_cons_of_mem _ h2)) g hg1
      · rw [if_neg (by simpa using hmax)] at hg
        dsimp only at hg
        rcases List.mem_cons.mp hg with hg1 | hg1
        · subst hg1
          dsimp only
          have h0 : ((g0.items.length : ℤ)) ≤ g0.maxSize := h g0 (List.mem_cons_self _ _)
          simp only [List.length_append, List.length_singleton]
          push_cast
          omega
        · exact ih xs (fun g2 h2 => h g2 (List.mem_cons_of_mem _ h2)) g hg1

/-- The round-robin loop preserves the capacity upper bound. -/
theorem rrLoop_len :
    ∀ (fuel : ℕ) (gs : List Group) (xs : List Item) (gs2 : List Group),
      (∀ g ∈ gs, (g.items.length : ℤ) ≤ g.maxSize) →
      rrLoop fuel gs xs = some gs2 →
      ∀ g ∈ gs2, (g.items.length : ℤ) ≤ g.maxSize := by
  intro fuel
  induction fuel with
  | zero => intro gs xs gs2 _ h; exact absurd h (by simp [rrLoop])
  | succ n ih =>
    intro gs xs gs2 hcap h
    cases xs with
    | nil =>
      rw [rrLoop] at h
      injection h with h
      subst h
      exact hcap
    | cons x xs =>
      rw [rrLoop] at h
      exact ih _ _ _ (rrPass_len gs (x :: xs) hcap) h

/-- A successful scatter respects every template's `MaxSize`, provided the
templates are well-formed (`0 ≤ MinSize ≤ MaxSize`). -/
theorem distribute_len (groups : List Group) (xs : List Item) (gs2 : List Group)
    (hsizes : ∀ g ∈ groups, 0 ≤ g.minSize ∧ g.minSize ≤ g.maxSize)
    (h : distribute groups xs = some gs2) :
    ∀ g ∈ gs2, (g.items.length : ℤ) ≤ g.maxSize := by
  rw [distribute] at h
  refine rrLoop_len _ _ _ _ ?_ h
  refine fillMins_len (freshGroups groups) xs ?_
  intro g hg
  rcases List.mem_map.mp hg with ⟨g0, hg0, rfl⟩
  exact ⟨rfl, (hsizes g0 hg0).1, (hsizes g0 hg0).2⟩

/-- C2 (amended): the capacity upper bound.  For every successful run
whose group templates are well-formed (`0 ≤ MinSize ≤ MaxSize`), every
returned group has at most `MaxSize` items.  (The lower bound of the
original claim fails: see the counterexamples.) -/
theorem c2_capacity_upper_bound (pp : String → Option Point) (fuel : ℕ)
    (items : List Item) (rules : List Rule) (groups : List Group) (gs : List Group)
    (hsizes : ∀ g ∈ groups, 0 ≤ g.minSize ∧ g.minSize ≤ g.maxSize)
    (h : run pp fuel items rules groups = RunResult.ok gs) :
    ∀ g ∈ gs, (g.items.length : ℤ) ≤ g.maxSize := by
  classical
  rw [run] at h
  by_cases hv : validateInput items groups = true
  · rw [hv] at h
    simp only [Bool.not_true, Bool.false_eq_true, if_false] at h
    set near := populateNearnessTagPoints pp rules with hnear
    cases hsf : stateFromPerm pp items near rules groups (List.replicate items.length 0) with
    | diverge => rw [hsf] at h; exact absurd h (by simp)
    | exhausted => rw [hsf] at h; exact absurd h (by simp)
    | panic => rw [hsf] at h; exact absurd h (by simp)
    | next s0 pc0 =>
      rw [hsf] at h
      have hgenP : ∀ (pc : List ℕ) (s : State) (pc2 : List ℕ),
          stateFromPerm pp items near rules groups pc = GenOut.next s pc2 →
          ∀ g ∈ s.groups, (g.items.length : ℤ) ≤ g.maxSize := by
        intro pc s pc2 hg
        rw [stateFromPerm] at hg
        cases hd : distribute groups (applyPerm pc items) with
        | none => rw [hd] at hg; exact absurd hg (by simp)
        | some gsd =>
          rw [hd] at hg
          dsimp only at hg
          cases hs : CalculateScore pp items near rules
              { groups := gsd, itemsNotInGroups := [], score := 0 } with
          | none => rw [hs] at hg; exact absurd hg (by simp)
          | some q =>
            rw [hs] at hg
            injection hg with h1 _
            subst h1
            exact distribute_len groups _ gsd hsizes hd
      have hP0 := hgenP _ s0 pc0 hsf
      have hmain := runLoop_ok_inv pp items near rules groups
        (fun s => ∀ g ∈ s.groups, (g.items.length : ℤ) ≤ g.maxSize)
        (by
          intro pc s pc2 hg
          rw [nextRandomState] at hg
          cases hip : incPerm pc with
          | none => rw [hip] at hg; exact absurd hg (by simp)
          | some pc3 =>
            rw [hip] at hg
            exact hgenP pc3 s pc2 hg)
        (by
          intro s t hs hbt
          refine getBestNextStateFrom_inv pp items near rules
            (fun s2 => ∀ g ∈ s2.groups, (g.items.length : ℤ) ≤ g.maxSize)
            ?_ s t hs ?_ hbt
          · intro s2 q hs2
            exact hs2
          · intro c hc
            exact candidateMoves_len s c hs hc)
        fuel s0 pc0 [] s0 gs hP0 hP0 h
      rcases hmain with ⟨s, hPs, rfl⟩
      exact hPs
  · rw [Bool.not_eq_true] at hv
    rw [hv] at h
    exact absurd h (by simp)

/-- Witness for C2's amended upper bound at a concrete run: the single
returned group of a concrete successful run respects its `MaxSize`. -/
theorem c2_capacity_upper_bound_witness :
    (((⟨"G1", 0, 4, [itA, itB]⟩ : Group).items.length : ℤ) ≤
      (⟨"G1", 0, 4, [itA, itB]⟩ : Group).maxSize) :=
  c2_capacity_upper_bound ppNone 10 [itA, itB] [] [⟨"G1", 0, 4, []⟩]
    [⟨"G1", 0, 4, [itA, itB]⟩] (by decide) rfl
    ⟨"G1", 0, 4, [itA, itB]⟩ (List.mem_singleton.mpr rfl)

end Arrangeit

namespace Arrangeit

/-! ## Score magnitude bounds (claim C6 machinery) -/

/-- The sum of squared occurrence counts is at most the squared length. -/
theorem sum_count_sq_le (vals : List String) :
    (∑ v ∈ vals.toFinset, (vals.count v) ^ 2) ≤ vals.length ^ 2 := by
  have htot : (∑ v ∈ vals.toFinset, vals.count v) = vals.length :=
    List.sum_toFinset_count_eq_length vals
  calc (∑ v ∈ vals.toFinset, (vals.count v) ^ 2)
      ≤ ∑ v ∈ vals.toFinset, (vals.count v) * vals.length := by
        refine Finset.sum_le_sum ?_
        intro v _
        rw [pow_two]
        exact Nat.mul_le_mul_left _ (List.count_le_length v vals)
  _ = (∑ v ∈ vals.toFinset, vals.count v) * vals.length := by
        rw [Finset.sum_mul]
  _ = vals.length * vals.length := by rw [htot]
  _ = vals.length ^ 2 := (pow_two _).symm

/-- Sum of squares is at most the square of the sum (naturals). -/
theorem sum_sq_le_sq_sum : ∀ l : List ℕ, (l.map fun x => x ^ 2).sum ≤ l.sum ^ 2 := by
  intro l
  induction l with
  | nil => simp
  | cons a t ih =>
    simp only [List.map_cons, List.sum_cons]
    have : (a + t.sum) ^ 2 = a ^ 2 + (2 * a * t.sum + t.sum ^ 2) := by ring
    rw [this]
    have h2 : t.sum ^ 2 ≤ 2 * a * t.sum + t.sum ^ 2 := Nat.le_add_left _ _
    omega

/-- A list whose entries are bounded below sums to at least `-count·B`. -/
theorem sum_ge_of_forall_ge (B : ℚ) :
    ∀ l : List ℚ, (∀ x ∈ l, -B ≤ x) → -((l.length : ℚ) * B) ≤ l.sum := by
  intro l
  induction l with
  | nil => simp
  | cons a t ih =>
    intro h
    simp only [List.sum_cons, List.length_cons]
    have h1 : -B ≤ a := h a (List.mem_cons_self _ _)
    have h2 : -((t.length : ℚ) * B) ≤ t.sum := ih fun x hx => h x (List.mem_cons_of_mem _ hx)
    push_cast
    linarith

/-- The Sameness score of one group is bounded below by
`-|weight| · len²`. -/
theorem samenessGroupScore_ge (rule : Rule) (g : Group) :
    -((rule.weight.natAbs : ℚ) * (g.items.length : ℚ) ^ 2) ≤ samenessGroupScore rule g := by
  have hterm : ∀ v ∈ (groupTagValues g rule.tagName).toFinset,
      -((rule.weight.natAbs : ℚ) * ((groupTagValues g rule.tagName).count v : ℚ) ^ 2) ≤
        (rule.weight : ℚ) * ((groupTagValues g rule.tagName).count v : ℚ) ^ 2 := by
    intro v _
    have hw : -((rule.weight.natAbs : ℚ)) ≤ (rule.weight : ℚ) := by
      have h0 : -(rule.weight.natAbs : ℤ) ≤ rule.weight := by omega
      exact_mod_cast h0
    have hsq : (0 : ℚ) ≤ ((groupTagValues g rule.tagName).count v : ℚ) ^ 2 := sq_nonneg _
    calc -((rule.weight.natAbs : ℚ) * ((groupTagValues g rule.tagName).count v : ℚ) ^ 2)
        = (-(rule.weight.natAbs : ℚ)) * ((groupTagValues g rule.tagName).count v : ℚ) ^ 2 := by
          ring
    _ ≤ (rule.weight : ℚ) * ((groupTagValues g rule.tagName).count v : ℚ) ^ 2 :=
          mul_le_mul_of_nonneg_right hw hsq
  have hsum := Finset.sum_le_sum hterm
  have heq : (∑ v ∈ (groupTagValues g rule.tagName).toFinset,
      -((rule.weight.natAbs : ℚ) * ((groupTagValues g rule.tagName).count v : ℚ) ^ 2)) =
      -((rule.weight.natAbs : ℚ) * (∑ v ∈ (groupTagValues g rule.tagName).toFinset,
        ((groupTagValues g rule.tagName).count v : ℚ) ^ 2)) := by
    rw [Finset.mul_sum, ← Finset.sum_neg_distrib]
  rw [heq] at hsum
  rw [samenessGroupScore]
  refine le_trans ?_ hsum
  have hsq2 : (∑ v ∈ (groupTagValues g rule.tagName).toFinset,
      ((groupTagValues g rule.tagName).count v : ℚ) ^ 2) ≤ ((g.items.length : ℚ)) ^ 2 := by
    have hN : (∑ v ∈ (groupTagValues g rule.tagName).toFinset,
        ((groupTagValues g rule.tagName).count v) ^ 2) ≤
        (groupTagValues g rule.tagName).length ^ 2 := sum_count_sq_le _
    have hlen : (groupTagValues g rule.tagName).length ≤ g.items.length :=
      List.length_filterMap_le _ _
    have hN2 : (∑ v ∈ (groupTagValues g rule.tagName).toFinset,
        ((groupTagValues g rule.tagName).count v) ^ 2) ≤ (g.items.length) ^ 2 :=
      le_trans hN (Nat.pow_le_pow_left hlen 2)
    calc (∑ v ∈ (groupTagValues g rule.tagName).toFinset,
        ((groupTagValues g rule.tagName).count v : ℚ) ^ 2)
        = ((∑ v ∈ (groupTagValues g rule.tagName).toFinset,
            ((groupTagValues g rule.tagName).count v) ^ 2 : ℕ) : ℚ) := by
          push_cast
          rfl
    _ ≤ (((g.items.length) ^ 2 : ℕ) : ℚ) := by exact_mod_cast hN2
    _ = ((g.items.length : ℚ)) ^ 2 := by push_cast; rfl
  have hw0 : (0 : ℚ) ≤ (rule.weight.natAbs : ℚ) := by positivity
  nlinarith [hsq2, hw0]

end Arrangeit

namespace Arrangeit

/-- Scaling a summed map. -/
theorem sum_map_scale {α : Type} (c : ℚ) (f : α → ℚ) (l : List α) :
    (l.map fun x => c * f x).sum = c * (l.map f).sum := by
  induction l with
  | nil => simp
  | cons a t ih => simp [ih, mul_add]

/-- The distribution ratio of a group drawn from the run's items lies in
`[0, 1]`. -/
theorem groupRatio_bounds (pp : String → Option Point) (rules : List Rule)
    (items : List Item) (g : Group) (tagName : String)
    (hsub : ∀ it ∈ g.items, it ∈ items) :
    0 ≤ (getGroupDistribution (populateNearnessTagPoints pp rules) g tagName).1 /
        maxDistributionForTag pp items tagName ∧
      (getGroupDistribution (populateNearnessTagPoints pp rules) g tagName).1 /
        maxDistributionForTag pp items tagName ≤ 1 := by
  have hmax0 : 0 ≤ maxDistributionForTag pp items tagName := getDistribution_nonneg _
  have hd0 : 0 ≤ (getGroupDistribution (populateNearnessTagPoints pp rules) g tagName).1 := by
    rw [getGroupDistribution_eq]
    exact getDistribution_nonneg _
  have hd : (getGroupDistribution (populateNearnessTagPoints pp rules) g tagName).1 ≤
      maxDistributionForTag pp items tagName := by
    rw [getGroupDistribution_eq, maxDistributionForTag]
    cases hpts : g.items.filterMap
        (fun it => populateNearnessTagPoints pp rules it tagName) with
    | nil => simpa [getDistribution] using hmax0
    | cons p r =>
      refine getDistribution_mono _ _ ?_ (List.cons_ne_nil p r)
      intro z hz
      exact groupPoints_mem_global pp rules items g tagName hsub z (hpts ▸ hz)
  refine ⟨div_nonneg hd0 hmax0, ?_⟩
  rcases eq_or_lt_of_le hmax0 with h0 | h0
  · rw [← h0, div_zero]; exact zero_le_one
  · exact (div_le_one h0).mpr hd

/-- The Nearness score of one group drawn from the run's items is bounded
below by `-|weight| · len`. -/
theorem nearnessGroupScore_ge (pp : String → Option Point) (rules : List Rule)
    (items : List Item) (rule : Rule) (g : Group)
    (hsub : ∀ it ∈ g.items, it ∈ items) :
    -((rule.weight.natAbs : ℚ) * (g.items.length : ℚ)) ≤
      nearnessGroupScore pp items (populateNearnessTagPoints pp rules) rule g := by
  rcases groupRatio_bounds pp rules items g rule.tagName hsub with ⟨hr0, hr1⟩
  rw [nearnessGroupScore]
  set d := (getGroupDistribution (populateNearnessTagPoints pp rules) g rule.tagName).1
  set n := (getGroupDistribution (populateNearnessTagPoints pp rules) g rule.tagName).2
  set m := maxDistributionForTag pp items rule.tagName
  have hn : (n : ℚ) ≤ (g.items.length : ℚ) := by
    have : n ≤ g.items.length := by
      have := getGroupDistribution_eq (populateNearnessTagPoints pp rules) g rule.tagName
      have hn2 : n = (g.items.filterMap
          (fun it => populateNearnessTagPoints pp rules it rule.tagName)).length := by
        rw [show n = (getGroupDistribution (populateNearnessTagPoints pp rules) g
            rule.tagName).2 from rfl, this]
      rw [hn2]
      exact List.length_filterMap_le _ _
    exact_mod_cast this
  have hn0 : (0 : ℚ) ≤ (n : ℚ) := by positivity
  have hw : -((rule.weight.natAbs : ℚ)) ≤ (rule.weight : ℚ) := by
    have h0 : -(rule.weight.natAbs : ℤ) ≤ rule.weight := by omega
    exact_mod_cast h0
  have hw0 : (0 : ℚ) ≤ (rule.weight.natAbs : ℚ) := by positivity
  have ha0 : (0 : ℚ) ≤ (n : ℚ) * (1 - d / m) := by
    have : (0 : ℚ) ≤ 1 - d / m := by linarith
    exact mul_nonneg hn0 this
  have ha1 : (n : ℚ) * (1 - d / m) ≤ (g.items.length : ℚ) := by
    have h1 : (n : ℚ) * (1 - d / m) ≤ (n : ℚ) * 1 := by
      refine mul_le_mul_of_nonneg_left ?_ hn0
      linarith
    rw [mul_one] at h1
    exact le_trans h1 hn
  calc -((rule.weight.natAbs : ℚ) * (g.items.length : ℚ))
      ≤ -((rule.weight.natAbs : ℚ) * ((n : ℚ) * (1 - d / m))) := by nlinarith
  _ = (-(rule.weight.natAbs : ℚ)) * ((n : ℚ) * (1 - d / m)) := by ring
  _ ≤ (rule.weight : ℚ) * ((n : ℚ) * (1 - d / m)) := mul_le_mul_of_nonneg_right hw ha0
  _ = (rule.weight : ℚ) * (n : ℚ) * (1 - d / m) := by ring

end Arrangeit

namespace Arrangeit

/-- One rule's total contribution to the exact score of a state drawn from
the run's items is bounded below by `-|weight| · (n² + n)`, where `n` is
the number of placed items. -/
theorem ruleCurrentScore_ge (pp : String → Option Point) (rules : List Rule)
    (items : List Item) (rule : Rule) (t : State)
    (hsub : ∀ g ∈ t.groups, ∀ it ∈ g.items, it ∈ items) :
    -((rule.weight.natAbs : ℚ) *
        ((((t.groups.map fun g => g.items.length).sum : ℕ) : ℚ) ^ 2 +
          (((t.groups.map fun g => g.items.length).sum : ℕ) : ℚ))) ≤
      ruleCurrentScore pp items (populateNearnessTagPoints pp rules) t rule := by
  have hw0 : (0 : ℚ) ≤ (rule.weight.natAbs : ℚ) := by positivity
  have hn0 : (0 : ℚ) ≤ (((t.groups.map fun g => g.items.length).sum : ℕ) : ℚ) := by positivity
  rw [ruleCurrentScore]
  cases htype : rule.type with
  | Relationship =>
    dsimp only
    have : (0 : ℚ) ≤ (rule.weight.natAbs : ℚ) *
        ((((t.groups.map fun g => g.items.length).sum : ℕ) : ℚ) ^ 2 +
          (((t.groups.map fun g => g.items.length).sum : ℕ) : ℚ)) := by positivity
    linarith
  | Sameness =>
    dsimp only
    have hpt := fun g => samenessGroupScore_ge rule g
    have hsum : (t.groups.map fun g =>
        -((rule.weight.natAbs : ℚ) * ((g.items.length : ℚ)) ^ 2)).sum ≤
        (t.groups.map (samenessGroupScore rule)).sum := by
      refine List.sum_le_sum ?_
      intro g _
      exact hpt g
    refine le_trans ?_ hsum
    have hscale := sum_map_scale (-(rule.weight.natAbs : ℚ))
        (fun g : Group => ((g.items.length : ℚ)) ^ 2) t.groups
    have heq : (t.groups.map fun g =>
        -((rule.weight.natAbs : ℚ) * ((g.items.length : ℚ)) ^ 2)).sum =
        (-(rule.weight.natAbs : ℚ)) * (t.groups.map fun g => ((g.items.length : ℚ)) ^ 2).sum := by
      rw [← hscale]
      congr 1
      refine List.map_congr_left ?_
      intro g _
      ring
    rw [heq]
    have hsq : (t.groups.map fun g => ((g.items.length : ℚ)) ^ 2).sum ≤
        ((((t.groups.map fun g => g.items.length).sum : ℕ) : ℚ)) ^ 2 := by
      have hN : ((t.groups.map fun g => g.items.length).map fun x => x ^ 2).sum ≤
          ((t.groups.map fun g => g.items.length).sum) ^ 2 :=
        sum_sq_le_sq_sum _
      have hcast : (t.groups.map fun g => ((g.items.length : ℚ)) ^ 2).sum =
          ((((t.groups.map fun g => g.items.length).map fun x => x ^ 2).sum : ℕ) : ℚ) := by
        rw [List.map_map]
        push_cast
        rw [List.map_map]
        rfl
      rw [hcast]
      calc ((((t.groups.map fun g => g.items.length).map fun x => x ^ 2).sum : ℕ) : ℚ)
          ≤ ((((t.groups.map fun g => g.items.length).sum) ^ 2 : ℕ) : ℚ) := by
            exact_mod_cast hN
      _ = ((((t.groups.map fun g => g.items.length).sum : ℕ) : ℚ)) ^ 2 := by push_cast; rfl
    nlinarith
  | Nearness =>
    dsimp only
    have hsum : (t.groups.map fun g =>
        -((rule.weight.natAbs : ℚ) * (g.items.length : ℚ))).sum ≤
        (t.groups.map (nearnessGroupScore pp items (populateNearnessTagPoints pp rules)
          rule)).sum := by
      refine List.sum_le_sum ?_
      intro g hg
      exact nearnessGroupScore_ge pp rules items rule g (hsub g hg)
    refine le_trans ?_ hsum
    have hscale2 := sum_map_scale (-(rule.weight.natAbs : ℚ))
        (fun g : Group => (g.items.length : ℚ)) t.groups
    have heq : (t.groups.map fun g =>
        -((rule.weight.natAbs : ℚ) * (g.items.length : ℚ))).sum =
        (-(rule.weight.natAbs : ℚ)) * (t.groups.map fun g => (g.items.length : ℚ)).sum := by
      rw [← hscale2]
      congr 1
      refine List.map_congr_left ?_
      intro g _
      ring
    rw [heq]
    have hlin : (t.groups.map fun g => (g.items.length : ℚ)).sum =
        ((((t.groups.map fun g => g.items.length).sum : ℕ) : ℚ)) := by
      push_cast
      rw [List.map_map]
      rfl
    rw [hlin]
    nlinarith

end Arrangeit

namespace Arrangeit

/-- C6: monotonic feasibility rejection.  (1) Every terminal state with a
non-empty group below its `MinSize` gets exactly the minimum representable
score (the `-math.MaxFloat64` sentinel).  (2) Every feasible terminal
state of an actual run — its groups drawn from the run's items, with
machine-representable rule count, weights and item count — scores at
least the sentinel, so an infeasible terminal state never beats a feasible
one. -/
theorem c6_infeasible_sentinel (pp : String → Option Point) (items : List Item)
    (rules : List Rule) :
    (∀ s : State, s.IsTerminal = true → meetsMinSizes s.groups = false →
        CalculateScore pp items (populateNearnessTagPoints pp rules) rules s =
          some minScoreQ) ∧
    (∀ t : State, t.IsTerminal = true → meetsMinSizes t.groups = true →
        hasLiveRelationship rules = false →
        (∀ g ∈ t.groups, ∀ it ∈ g.items, it ∈ items) →
        rules.length ≤ 2 ^ 64 →
        (∀ r ∈ rules, r.weight.natAbs ≤ 2 ^ 64) →
        (t.groups.map fun g => g.items.length).sum ≤ 2 ^ 64 →
        ∀ q, CalculateScore pp items (populateNearnessTagPoints pp rules) rules t = some q →
          minScoreQ ≤ q) := by
  constructor
  · intro s hterm hinf
    rw [CalculateScore, hterm, hinf]
    simp
  · intro t hterm hfeas hrel hsub hR hW hn q hq
    rw [CalculateScore, hterm, hfeas] at hq
    simp only [Bool.not_true, Bool.false_eq_true, if_false] at hq
    rw [CalculateCurrentScore, if_neg (by simp [hrel])] at hq
    injection hq with hq
    subst hq
    set n : ℕ := (t.groups.map fun g => g.items.length).sum with hndef
    set B : ℚ := (2 : ℚ) ^ 64 * (((2 : ℚ) ^ 64) ^ 2 + (2 : ℚ) ^ 64) with hBdef
    have hB0 : (0 : ℚ) ≤ B := by rw [hBdef]; positivity
    have hnQ : ((n : ℚ)) ≤ (2 : ℚ) ^ 64 := by exact_mod_cast hn
    have hn0 : (0 : ℚ) ≤ (n : ℚ) := by positivity
    have hrule : ∀ r ∈ rules.filter fun r => !decide (r.weight = 0),
        -B ≤ ruleCurrentScore pp items (populateNearnessTagPoints pp rules) t r := by
      intro r hr
      have hrmem : r ∈ rules := List.mem_of_mem_filter hr
      have hWr : (r.weight.natAbs : ℚ) ≤ (2 : ℚ) ^ 64 := by
        exact_mod_cast hW r hrmem
      have hW0 : (0 : ℚ) ≤ (r.weight.natAbs : ℚ) := by positivity
      have hbase := ruleCurrentScore_ge pp rules items r t hsub
      rw [← hndef] at hbase
      refine le_trans ?_ hbase
      rw [hBdef]
      have hsq : ((n : ℚ)) ^ 2 ≤ ((2 : ℚ) ^ 64) ^ 2 := by nlinarith
      nlinarith
    have hlen : ((rules.filter fun r => !decide (r.weight = 0)).length : ℚ) ≤ (2 : ℚ) ^ 64 := by
      have h1 : (rules.filter fun r => !decide (r.weight = 0)).length ≤ rules.length :=
        List.length_filter_le _ _
      have h2 : (rules.filter fun r => !decide (r.weight = 0)).length ≤ 2 ^ 64 :=
        le_trans h1 hR
      exact_mod_cast h2
    have hsumge := sum_ge_of_forall_ge B
      ((rules.filter fun r => !decide (r.weight = 0)).map
        (ruleCurrentScore pp items (populateNearnessTagPoints pp rules) t))
      (by
        intro x hx
        rcases List.mem_map.mp hx with ⟨r, hr, rfl⟩
        exact hrule r hr)
    rw [List.length_map] at hsumge
    refine le_trans ?_ hsumge
    have hq1 : ((rules.filter fun r => !decide (r.weight = 0)).length : ℚ) * B ≤
        (2 : ℚ) ^ 64 * B := mul_le_mul_of_nonneg_right hlen hB0
    have hfinal : (2 : ℚ) ^ 64 * B ≤ 2 ^ 1024 - 2 ^ 971 := by
      rw [hBdef]
      norm_num
    rw [minScoreQ_eq]
    linarith
  
end Arrangeit

namespace Arrangeit

/-- Witness for C6: an infeasible two-item terminal state gets the
sentinel; a feasible one (empty rule set, score `0`) is at or above it. -/
theorem c6_infeasible_sentinel_witness :
    CalculateScore ppNone [itA, itB] (populateNearnessTagPoints ppNone []) []
        ⟨[⟨"G1", 3, 4, [itA, itB]⟩], [], 0⟩ = some minScoreQ ∧
      minScoreQ ≤ 0 :=
  ⟨(c6_infeasible_sentinel ppNone [itA, itB] []).1
      ⟨[⟨"G1", 3, 4, [itA, itB]⟩], [], 0⟩ rfl rfl,
   (c6_infeasible_sentinel ppNone [itA, itB] []).2
      ⟨[⟨"G1", 0, 4, [itA, itB]⟩], [], 0⟩ rfl rfl rfl
      (by
        intro g hg it hit
        rw [List.mem_singleton] at hg
        subst hg
        exact hit)
      (by norm_num)
      (by intro r hr; cases hr)
      (by decide)
      0 rfl⟩

end Arrangeit

namespace Arrangeit

/-! ## Claim C4: the heuristic bound -/

/-- `Extends gs exs gs2`: the groups `gs2` are the groups `gs` with the
extra items `exs` appended groupwise (names and capacities unchanged). -/
inductive Extends : List Group → List (List Item) → List Group → Prop where
  | nil : Extends [] [] []
  | cons {g g2 : Group} {ex : List Item} {gs : List Group} {exs : List (List Item)}
      {gs2 : List Group} :
      g2.name = g.name → g2.minSize = g.minSize → g2.maxSize = g.maxSize →
      g2.items = g.items ++ ex →
      Extends gs exs gs2 → Extends (g :: gs) (ex :: exs) (g2 :: gs2)

/-- `PlacedInto s t`: the terminal state `t` is obtained from `s` by
placing every one of `s`'s unplaced items into some group. -/
def PlacedInto (s t : State) : Prop :=
  ∃ exs : List (List Item),
    Extends s.groups exs t.groups ∧ exs.flatten.Perm s.itemsNotInGroups ∧
      t.itemsNotInGroups = []

/-- An item with the `"t"` tag set to `"v"` (ID `"a"`). -/
def itTagA : Item := ⟨[97], fun k => if k = "t" then "v" else ""⟩

/-- A second item with the `"t"` tag set to `"v"` (ID `"b"`). -/
def itTagB : Item := ⟨[98], fun k => if k = "t" then "v" else ""⟩

/-- An item at coordinate string `"p0"` (ID `"a"`). -/
def itLocA : Item := ⟨[97], fun k => if k = "loc" then "p0" else ""⟩

/-- An item at coordinate string `"p1"` (ID `"c"`). -/
def itLocC : Item := ⟨[99], fun k => if k = "loc" then "p1" else ""⟩

/-- A parse table mapping `"p0"` to the origin and `"p1"` to `(1, 0)`. -/
def ppTwo : String → Option Point :=
  fun s => if s = "p0" then some (0, 0) else if s = "p1" then some (1, 0) else none

/-- C4 counterexample: the heuristic bound underestimates on the code as
written.  (1) With the `count²` Sameness scoring and a positive weight,
`CalculateMaxPotentialScore` of a one-placed/one-unplaced state is `2`,
but the feasible terminal completion (both same-tag items in the one
group, within `MaxSize`) scores `4`.  (2) With a negative-weight Nearness
rule the bonus is `0`, yet placing the far item raises the score from
`-1` to `0`.  In both cases the completion is a legitimate placement
(`PlacedInto`, `MaxSize` respected, feasible). -/
theorem c4_heuristic_counterexample :
    (CalculateMaxPotentialScore ppNone [itTagA, itTagB] (fun _ _ => none)
          [⟨"t", RuleType.Sameness, 1⟩]
          ⟨[⟨"G1", 0, 2, [itTagA]⟩], [itTagB], 0⟩ = some 2 ∧
        CalculateScore ppNone [itTagA, itTagB] (fun _ _ => none)
          [⟨"t", RuleType.Sameness, 1⟩]
          ⟨[⟨"G1", 0, 2, [itTagA, itTagB]⟩], [], 0⟩ = some 4 ∧
        PlacedInto ⟨[⟨"G1", 0, 2, [itTagA]⟩], [itTagB], 0⟩
          ⟨[⟨"G1", 0, 2, [itTagA, itTagB]⟩], [], 0⟩ ∧
        meetsMinSizes [⟨"G1", 0, 2, [itTagA, itTagB]⟩] = true ∧
        (∀ g ∈ ([⟨"G1", 0, 2, [itTagA, itTagB]⟩] : List Group),
          (g.items.length : ℤ) ≤ g.maxSize) ∧
        (2 : ℚ) < 4) ∧
      (CalculateMaxPotentialScore ppTwo [itLocA, itLocC]
          (populateNearnessTagPoints ppTwo [⟨"loc", RuleType.Nearness, -1⟩])
          [⟨"loc", RuleType.Nearness, -1⟩]
          ⟨[⟨"G1", 0, 2, [itLocA]⟩], [itLocC], 0⟩ = some (-1) ∧
        CalculateScore ppTwo [itLocA, itLocC]
          (populateNearnessTagPoints ppTwo [⟨"loc", RuleType.Nearness, -1⟩])
          [⟨"loc", RuleType.Nearness, -1⟩]
          ⟨[⟨"G1", 0, 2, [itLocA, itLocC]⟩], [], 0⟩ = some 0 ∧
        PlacedInto ⟨[⟨"G1", 0, 2, [itLocA]⟩], [itLocC], 0⟩
          ⟨[⟨"G1", 0, 2, [itLocA, itLocC]⟩], [], 0⟩ ∧
        meetsMinSizes [⟨"G1", 0, 2, [itLocA, itLocC]⟩] = true ∧
        (∀ g ∈ ([⟨"G1", 0, 2, [itLocA, itLocC]⟩] : List Group),
          (g.items.length : ℤ) ≤ g.maxSize) ∧
        (-1 : ℚ) < 0) := by
  refine ⟨⟨by decide, by decide, ?_, by decide, by decide, by norm_num⟩,
    ⟨by decide, by decide, ?_, by decide, by decide, by norm_num⟩⟩
  · exact ⟨[[itTagB]], Extends.cons rfl rfl rfl rfl Extends.nil, List.Perm.refl _, rfl⟩
  · exact ⟨[[itLocC]], Extends.cons rfl rfl rfl rfl Extends.nil, List.Perm.refl _, rfl⟩

end Arrangeit

namespace Arrangeit

/-- The abstract greedy fill over `(value, capacity)` slots: fill each
slot in order from a budget `p`, paying `value` per filled unit. -/
def gfill : ℤ → List (ℚ × ℤ) → ℚ
  | _, [] => 0
  | p, vc :: rest =>
    if 0 < p then ((min vc.2 p : ℤ) : ℚ) * vc.1 + gfill (p - min vc.2 p) rest
    else 0

/-- `greedyFill` is the weighted abstract greedy fill over the
`(1 - d/maxDist, slots)` view of its `(distribution, slots)` input. -/
theorem greedyFill_eq_gfill (w : ℤ) (m : ℚ) :
    ∀ (p : ℤ) (slots : List (ℚ × ℤ)),
      greedyFill w m p slots = (w : ℚ) * gfill p (slots.map fun dc => (1 - dc.1 / m, dc.2)) := by
  intro p slots
  induction slots generalizing p with
  | nil => simp [greedyFill, gfill]
  | cons dc rest ih =>
    rw [greedyFill, List.map_cons, gfill]
    by_cases hp : 0 < p
    · rw [if_pos hp, if_pos hp]
      dsimp only
      rw [ih]
      have hmin : (if p ≥ dc.2 then dc.2 else p) = min dc.2 p := by
        rcases le_total dc.2 p with h | h
        · rw [if_pos h, min_eq_left h]
        · rcases eq_or_lt_of_le h with h2 | h2
          · rw [h2]; simp
          · rw [if_neg (by omega), min_eq_right h]
      rw [hmin]
      ring
    · rw [if_neg hp, if_neg hp]
      ring

/-- A bounded-value allocation is worth at most its size times the value
bound. -/
theorem sum_kv_le (V : ℚ) :
    ∀ ts : List (ℚ × ℤ × ℤ),
      (∀ tr ∈ ts, 0 ≤ tr.2.2 ∧ tr.1 ≤ V) →
      (ts.map fun tr => (tr.2.2 : ℚ) * tr.1).sum ≤
        (((ts.map fun tr => tr.2.2).sum : ℤ) : ℚ) * V := by
  intro ts
  induction ts with
  | nil => simp
  | cons tr rest ih =>
    intro h
    rcases h tr (List.mem_cons_self _ _) with ⟨hk0, hvV⟩
    have ih2 := ih fun x hx => h x (List.mem_cons_of_mem _ hx)
    simp only [List.map_cons, List.sum_cons]
    have h1 : (tr.2.2 : ℚ) * tr.1 ≤ (tr.2.2 : ℚ) * V :=
      mul_le_mul_of_nonneg_left hvV (by exact_mod_cast hk0)
    push_cast
    push_cast at ih2
    nlinarith

/-- Sums of non-negative integers are non-negative. -/
theorem sum_ks_nonneg (ts : List (ℚ × ℤ × ℤ)) (h : ∀ tr ∈ ts, 0 ≤ tr.2.2) :
    0 ≤ (ts.map fun tr => tr.2.2).sum := by
  induction ts with
  | nil => simp
  | cons tr rest ih =>
    simp only [List.map_cons, List.sum_cons]
    have h1 := h tr (List.mem_cons_self _ _)
    have h2 := ih fun x hx => h x (List.mem_cons_of_mem _ hx)
    omega

/-- Greedy optimality of the slot filling: any allocation `k` within the
capacities, over slots sorted by non-increasing value, is worth at most
`δ·V` plus the greedy fill of the remaining budget, for any reserve
`0 ≤ δ ≤ Σk` and any upper bound `V` on the values. -/
theorem gfill_ge :
    ∀ (ts : List (ℚ × ℤ × ℤ)) (V : ℚ) (δ : ℤ),
      (∀ tr ∈ ts, 0 ≤ tr.2.2 ∧ tr.2.2 ≤ tr.2.1) →
      List.Pairwise (fun a b : ℚ × ℤ × ℤ => b.1 ≤ a.1) ts →
      (∀ tr ∈ ts, tr.1 ≤ V) →
      0 ≤ δ → δ ≤ (ts.map fun tr => tr.2.2).sum →
      (ts.map fun tr => (tr.2.2 : ℚ) * tr.1).sum ≤
        (δ : ℚ) * V +
          gfill ((ts.map fun tr => tr.2.2).sum - δ) (ts.map fun tr => (tr.1, tr.2.1)) := by
  intro ts
  induction ts with
  | nil =>
    intro V δ _ _ _ hδ0 hδS
    simp only [List.map_nil, List.sum_nil] at hδS ⊢
    have hδ : δ = 0 := le_antisymm hδS hδ0
    subst hδ
    simp [gfill]
  | cons tr rest ih =>
    intro V δ hcaps hsorted hV hδ0 hδS
    rcases hcaps tr (List.mem_cons_self _ _) with ⟨hk0, hkc⟩
    have hcaps2 : ∀ x ∈ rest, 0 ≤ x.2.2 ∧ x.2.2 ≤ x.2.1 :=
      fun x hx => hcaps x (List.mem_cons_of_mem _ hx)
    have hS'0 : 0 ≤ (rest.map fun x => x.2.2).sum :=
      sum_ks_nonneg rest fun x hx => (hcaps2 x hx).1
    have hvV : tr.1 ≤ V := hV tr (List.mem_cons_self _ _)
    have hrestv : ∀ x ∈ rest, x.1 ≤ tr.1 :=
      fun x hx => (List.pairwise_cons.mp hsorted).1 x hx
    have hrestsorted : List.Pairwise (fun a b : ℚ × ℤ × ℤ => b.1 ≤ a.1) rest :=
      (List.pairwise_cons.mp hsorted).2
    simp only [List.map_cons, List.sum_cons] at hδS ⊢
    set S2 : ℤ := (rest.map fun x => x.2.2).sum with hS2
    by_cases hB : 0 < tr.2.2 + S2 - δ
    · rw [gfill, if_pos hB]
      dsimp only
      set m : ℤ := min tr.2.1 (tr.2.2 + S2 - δ) with hm
      have hm0 : 0 ≤ m := by
        rw [hm]
        rcases le_total tr.2.1 (tr.2.2 + S2 - δ) with h | h
        · rw [min_eq_left h]; omega
        · rw [min_eq_right h]; omega
      have hmB : m ≤ tr.2.2 + S2 - δ := min_le_right _ _
      have hmc : m ≤ tr.2.1 := min_le_left _ _
      set δ2 : ℤ := δ + m - tr.2.2 with hδ2
      have hδ20 : 0 ≤ δ2 := by
        rw [hδ2, hm]
        rcases le_total tr.2.1 (tr.2.2 + S2 - δ) with h | h
        · rw [min_eq_left h]; omega
        · rw [min_eq_right h]; omega
      have hδ2S : δ2 ≤ S2 := by omega
      have hihv := ih tr.1 δ2 hcaps2 hrestsorted hrestv hδ20 hδ2S
      have hrem : S2 - δ2 = tr.2.2 + S2 - δ - m := by omega
      rw [hrem] at hihv
      have hδv : (δ : ℚ) * tr.1 ≤ (δ : ℚ) * V :=
        mul_le_mul_of_nonneg_left hvV (by exact_mod_cast hδ0)
      have hδ2cast : ((δ2 : ℤ) : ℚ) = (δ : ℚ) + (m : ℚ) - (tr.2.2 : ℚ) := by
        rw [hδ2]
        push_cast
        ring
      rw [hδ2cast] at hihv
      nlinarith [hihv, hδv]
    · rw [gfill, if_neg hB]
      have hδK : δ = tr.2.2 + S2 := by omega
      have hall := sum_kv_le V (tr :: rest)
        (fun x hx => ⟨(hcaps x hx).1, hV x hx⟩)
      simp only [List.map_cons, List.sum_cons] at hall
      rw [hδK, hS2]
      push_cast
      push_cast at hall
      nlinarith [hall]

end Arrangeit

namespace Arrangeit

/-- Mapping two pointwise-equal functions over a list gives equal lists. -/
theorem map_ext_mem {α β : Type} (f g : α → β) :
    ∀ l : List α, (∀ x ∈ l, f x = g x) → l.map f = l.map g := by
  intro l
  induction l with
  | nil => intro _; rfl
  | cons a r ih =>
    intro h
    simp only [List.map_cons]
    rw [h a (List.mem_cons_self _ _), ih fun x hx => h x (List.mem_cons_of_mem _ hx)]

/-- Filtering out only elements that map to `0` does not change a mapped
sum. -/
theorem sum_filter_of_zero {α β : Type} [AddCommMonoid β] (p : α → Bool) (f : α → β) :
    ∀ l : List α, (∀ x ∈ l, p x = false → f x = 0) →
      ((l.filter p).map f).sum = (l.map f).sum := by
  intro l
  induction l with
  | nil => intro _; rfl
  | cons a r ih =>
    intro h
    have ih2 := ih fun x hx => h x (List.mem_cons_of_mem _ hx)
    cases hp : p a with
    | true => simp only [List.filter_cons, hp, if_true, List.map_cons, List.sum_cons, ih2]
    | false =>
      simp only [List.filter_cons, hp, Bool.false_eq_true, if_false, List.map_cons,
        List.sum_cons, ih2, h a (List.mem_cons_self _ _) hp, zero_add]

/-- A mapped sum is bounded by the sum of two pointwise upper-bound
maps. -/
theorem sum_le_sum_add {α : Type} (f g h : α → ℚ) :
    ∀ l : List α, (∀ x ∈ l, f x ≤ g x + h x) →
      (l.map f).sum ≤ (l.map g).sum + (l.map h).sum := by
  intro l
  induction l with
  | nil => intro _; simp
  | cons a r ih =>
    intro hb
    have h1 := hb a (List.mem_cons_self _ _)
    have h2 := ih fun x hx => hb x (List.mem_cons_of_mem _ hx)
    simp only [List.map_cons, List.sum_cons]
    linarith

/-- Appending items to a group appends their non-empty tag values to the
group's tag-value list. -/
theorem groupTagValues_extend (g g2 : Group) (ex : List Item) (tagName : String)
    (hit : g2.items = g.items ++ ex) :
    groupTagValues g2 tagName =
      groupTagValues g tagName ++
        ex.filterMap (fun it =>
          if it.tags tagName = "" then none else some (it.tags tagName)) := by
  rw [groupTagValues, groupTagValues, hit, List.filterMap_append]

/-- With a non-positive Sameness weight, appending items to a group can
only lower its `count²` Sameness contribution. -/
theorem samenessGroupScore_extend_le (rule : Rule) (g g2 : Group) (ex : List Item)
    (hw : rule.weight ≤ 0) (hit : g2.items = g.items ++ ex) :
    samenessGroupScore rule g2 ≤ samenessGroupScore rule g := by
  rw [samenessGroupScore, samenessGroupScore,
    groupTagValues_extend g g2 ex rule.tagName hit]
  set vals := groupTagValues g rule.tagName with hvals
  set exv := ex.filterMap (fun it =>
    if it.tags rule.tagName = "" then none else some (it.tags rule.tagName)) with hexv
  have hwq : ((rule.weight : ℤ) : ℚ) ≤ 0 := by exact_mod_cast hw
  have hsub : vals.toFinset ⊆ (vals ++ exv).toFinset := by
    intro v hv
    rw [List.toFinset_append]
    exact Finset.mem_union_left _ hv
  rw [← Finset.sum_sdiff hsub]
  have h1 : (∑ v ∈ (vals ++ exv).toFinset \ vals.toFinset,
      (rule.weight : ℚ) * ((vals ++ exv).count v : ℚ) ^ 2) ≤ 0 := by
    refine Finset.sum_nonpos ?_
    intro v _
    have hc : (0 : ℚ) ≤ ((vals ++ exv).count v : ℚ) ^ 2 := sq_nonneg _
    nlinarith
  have h2 : (∑ v ∈ vals.toFinset,
      (rule.weight : ℚ) * ((vals ++ exv).count v : ℚ) ^ 2) ≤
      ∑ v ∈ vals.toFinset, (rule.weight : ℚ) * (vals.count v : ℚ) ^ 2 := by
    refine Finset.sum_le_sum ?_
    intro v _
    have hcount : vals.count v ≤ (vals ++ exv).count v := by
      rw [List.count_append]
      omega
    have hc1 : ((vals.count v : ℕ) : ℚ) ≤ (((vals ++ exv).count v : ℕ) : ℚ) := by
      exact_mod_cast hcount
    have hc0 : (0 : ℚ) ≤ ((vals.count v : ℕ) : ℚ) := by positivity
    have hsq : ((vals.count v : ℕ) : ℚ) ^ 2 ≤ (((vals ++ exv).count v : ℕ) : ℚ) ^ 2 := by
      nlinarith
    exact mul_le_mul_of_nonpos_left hsq hwq
  linarith

/-- The groupwise Sameness monotonicity summed along an `Extends`
relation. -/
theorem sameness_sum_extend_le (rule : Rule) (hw : rule.weight ≤ 0) :
    ∀ {gs : List Group} {exs : List (List Item)} {gs2 : List Group},
      Extends gs exs gs2 →
      (gs2.map (samenessGroupScore rule)).sum ≤ (gs.map (samenessGroupScore rule)).sum := by
  intro gs exs gs2 h
  induction h with
  | nil => simp
  | cons hname hmin hmax hitems htail ih =>
    simp only [List.map_cons, List.sum_cons]
    have h1 := samenessGroupScore_extend_le rule _ _ _ hw hitems
    linarith

end Arrangeit

namespace Arrangeit

/-- With a non-negative Nearness weight, appending items to a group raises
its Nearness contribution by at most `weight · (new points) ·
(1 - distribution/maxDistribution)` computed at the group's old
distribution. -/
theorem nearnessGroupScore_extend_le (pp : String → Option Point) (items : List Item)
    (near : Item → String → Option Point) (rule : Rule) (g g2 : Group) (ex : List Item)
    (hw : 0 ≤ rule.weight) (hit : g2.items = g.items ++ ex) :
    nearnessGroupScore pp items near rule g2 ≤
      nearnessGroupScore pp items near rule g +
        (rule.weight : ℚ) *
          ((ex.countP fun it => (near it rule.tagName).isSome : ℕ) : ℚ) *
          (1 - (getGroupDistribution near g rule.tagName).1 /
            maxDistributionForTag pp items rule.tagName) := by
  simp only [nearnessGroupScore, getGroupDistribution_eq]
  set m := maxDistributionForTag pp items rule.tagName with hm
  have hm0 : 0 ≤ m := getDistribution_nonneg _
  set pts := g.items.filterMap (fun it => near it rule.tagName) with hpts
  have hpts2 : g2.items.filterMap (fun it => near it rule.tagName) =
      pts ++ ex.filterMap (fun it => near it rule.tagName) := by
    rw [hit, List.filterMap_append]
  rw [hpts2]
  set exq := ex.filterMap (fun it => near it rule.tagName) with hexq
  have hk : exq.length = ex.countP (fun it => (near it rule.tagName).isSome) := by
    rw [hexq]
    exact List.length_filterMap_eq_countP _ _
  rw [← hk]
  set d := getDistribution pts with hd
  set d2 := getDistribution (pts ++ exq) with hd2
  have hd0 : 0 ≤ d := getDistribution_nonneg _
  have hdd : d ≤ d2 := by
    rcases eq_or_ne pts [] with hc | hc
    · have hz : d = 0 := by rw [hd, hc]; simp [getDistribution]
      rw [hz, hd2]
      exact getDistribution_nonneg _
    · exact getDistribution_mono _ _ (fun z hz => List.mem_append_left _ hz) hc
  have hratio : d / m ≤ d2 / m := by
    rcases eq_or_lt_of_le hm0 with h0 | h0
    · rw [← h0, div_zero, div_zero]
    · exact (div_le_div_iff_of_pos_right h0).mpr hdd
  have hw' : (0 : ℚ) ≤ ((rule.weight : ℤ) : ℚ) := by exact_mod_cast hw
  have hnk : (0 : ℚ) ≤ ((pts.length : ℚ) + (exq.length : ℚ)) := by positivity
  have key : 0 ≤ ((rule.weight : ℤ) : ℚ) * ((pts.length : ℚ) + (exq.length : ℚ)) *
      (d2 / m - d / m) :=
    mul_nonneg (mul_nonneg hw' hnk) (sub_nonneg.mpr hratio)
  simp only [List.length_append]
  push_cast
  nlinarith [key]

/-- The per-group Nearness bound summed along an `Extends` relation:
the terminal groups' Nearness total is at most the partial groups' total
plus the sum, over each group paired with its added items, of
`weight · (group's new points) · (1 - distribution/maxDistribution)`. -/
theorem nearness_sum_extend_le (pp : String → Option Point) (items : List Item)
    (near : Item → String → Option Point) (rule : Rule) (hw : 0 ≤ rule.weight) :
    ∀ {gs : List Group} {exs : List (List Item)} {gs2 : List Group},
      Extends gs exs gs2 →
      (gs2.map (nearnessGroupScore pp items near rule)).sum ≤
        (gs.map (nearnessGroupScore pp items near rule)).sum +
          ((gs.zip exs).map fun pr =>
            (rule.weight : ℚ) *
              ((pr.2.countP fun it => (near it rule.tagName).isSome : ℕ) : ℚ) *
              (1 - (getGroupDistribution near pr.1 rule.tagName).1 /
                maxDistributionForTag pp items rule.tagName)).sum := by
  intro gs exs gs2 h
  induction h with
  | nil => simp
  | cons hname hmin hmax hitems htail ih =>
    simp only [List.map_cons, List.sum_cons, List.zip_cons_cons]
    have h1 := nearnessGroupScore_extend_le pp items near rule _ _ _ hw hitems
    linarith

end Arrangeit

namespace Arrangeit

/-- The `(distribution, slotsLeft, pointsAdded)` triples of a list of
groups paired with the items added to each. -/
def slotTriples (near : Item → String → Option Point) (tagName : String)
    (prs : List (Group × List Item)) : List (ℚ × ℤ × ℤ) :=
  prs.map fun pr =>
    ((getGroupDistribution near pr.1 tagName).1,
      pr.1.maxSize - (pr.1.items.length : ℤ),
      ((pr.2.countP fun it => (near it tagName).isSome : ℕ) : ℤ))

/-- Keeping only the positive-slot entries and projecting away the
allocation component gives exactly the `(distribution, slots)` list the
greedy loop consumes. -/
theorem filter_map_eq_filterMap :
    ∀ ts : List (ℚ × ℤ × ℤ),
      (ts.filter fun tr => decide (0 < tr.2.1)).map (fun tr => ((tr.1, tr.2.1) : ℚ × ℤ)) =
        ts.filterMap fun tr => if 0 < tr.2.1 then some ((tr.1, tr.2.1) : ℚ × ℤ) else none := by
  intro ts
  induction ts with
  | nil => rfl
  | cons a r ih =>
    by_cases h : 0 < a.2.1
    · simp [List.filter_cons, List.filterMap_cons, h, ih]
    · simp [List.filter_cons, List.filterMap_cons, h, ih]

/-- The greedy Nearness bonus bounds any concrete allocation: over any
triple list with non-negative distributions whose allocations fit their
capacities, the allocated score is at most the greedy fill of the total
allocation over the positive-slot entries sorted by distribution. -/
theorem triples_le_bonus (w : ℤ) (m : ℚ) (hw : 0 ≤ w) (hm : 0 ≤ m)
    (ts : List (ℚ × ℤ × ℤ))
    (hd0 : ∀ tr ∈ ts, 0 ≤ tr.1)
    (hcaps : ∀ tr ∈ ts, 0 ≤ tr.2.2 ∧ tr.2.2 ≤ tr.2.1) :
    (ts.map fun tr => (w : ℚ) * (tr.2.2 : ℚ) * (1 - tr.1 / m)).sum ≤
      greedyFill w m ((ts.map fun tr => tr.2.2).sum)
        ((ts.filterMap fun tr =>
          if 0 < tr.2.1 then some ((tr.1, tr.2.1) : ℚ × ℤ) else none).mergeSort
          (fun a b => decide (a.1 ≤ b.1))) := by
  have hmono : ∀ x y : ℚ, x ≤ y → 1 - y / m ≤ 1 - x / m := by
    intro x y hxy
    have hdiv : x / m ≤ y / m := by
      rcases eq_or_lt_of_le hm with h0 | h0
      · rw [← h0, div_zero, div_zero]
      · exact (div_le_div_iff_of_pos_right h0).mpr hxy
    linarith
  have hzerov : ∀ tr ∈ ts, (fun tr : ℚ × ℤ × ℤ => decide (0 < tr.2.1)) tr = false →
      (w : ℚ) * (tr.2.2 : ℚ) * (1 - tr.1 / m) = 0 := by
    intro tr htr hp
    simp only [decide_eq_false_iff_not] at hp
    have h1 := hcaps tr htr
    have h2 : tr.2.2 = 0 := by omega
    rw [h2]
    norm_num
  have hzerok : ∀ tr ∈ ts, (fun tr : ℚ × ℤ × ℤ => decide (0 < tr.2.1)) tr = false →
      tr.2.2 = (0 : ℤ) := by
    intro tr htr hp
    simp only [decide_eq_false_iff_not] at hp
    have h1 := hcaps tr htr
    omega
  set fts := ts.filter (fun tr : ℚ × ℤ × ℤ => decide (0 < tr.2.1)) with hfts
  set sorted := fts.mergeSort (fun a b : ℚ × ℤ × ℤ => decide (a.1 ≤ b.1)) with hsorteddef
  have hperm : sorted.Perm fts := List.mergeSort_perm fts _
  have hmemts : ∀ tr ∈ sorted, tr ∈ ts := fun tr htr =>
    List.mem_of_mem_filter (hperm.mem_iff.mp htr)
  set vts := sorted.map (fun tr : ℚ × ℤ × ℤ => ((1 - tr.1 / m, tr.2.1, tr.2.2) : ℚ × ℤ × ℤ))
    with hvts
  have hvcaps : ∀ x ∈ vts, 0 ≤ x.2.2 ∧ x.2.2 ≤ x.2.1 := by
    intro x hx
    rw [hvts] at hx
    rcases List.mem_map.mp hx with ⟨tr, htr, hxe⟩
    rcases hcaps tr (hmemts tr htr) with ⟨h1, h2⟩
    rw [← hxe]
    exact ⟨h1, h2⟩
  have hsortedp : List.Pairwise (fun a b : ℚ × ℤ × ℤ => decide (a.1 ≤ b.1) = true) sorted := by
    rw [hsorteddef]
    exact List.sorted_mergeSort
      (fun a b c hab hbc => by
        simp only [decide_eq_true_eq] at hab hbc ⊢
        exact le_trans hab hbc)
      (fun a b => by rcases le_total a.1 b.1 with h | h <;> simp [h]) fts
  have hvpair : List.Pairwise (fun a b : ℚ × ℤ × ℤ => b.1 ≤ a.1) vts := by
    rw [hvts]
    refine List.Pairwise.map _ ?_ hsortedp
    intro a b hab
    simp only [decide_eq_true_eq] at hab
    exact hmono a.1 b.1 hab
  have hvV : ∀ x ∈ vts, x.1 ≤ 1 := by
    intro x hx
    rw [hvts] at hx
    rcases List.mem_map.mp hx with ⟨tr, htr, hxe⟩
    have hd := hd0 tr (hmemts tr htr)
    have hdm : 0 ≤ tr.1 / m := div_nonneg hd hm
    rw [← hxe]
    dsimp only
    linarith
  have hsumk_f : ((fts.map fun tr => tr.2.2).sum = (ts.map fun tr => tr.2.2).sum) := by
    rw [hfts]
    exact sum_filter_of_zero _ _ ts hzerok
  have hsumk_s : ((sorted.map fun tr => tr.2.2).sum = (fts.map fun tr => tr.2.2).sum) :=
    (hperm.map _).sum_eq
  have hvk : (vts.map fun x => x.2.2) = sorted.map fun tr => tr.2.2 := by
    rw [hvts, List.map_map]
    rfl
  have hvks : (vts.map fun x => x.2.2).sum = (ts.map fun tr => tr.2.2).sum := by
    rw [hvk, hsumk_s, hsumk_f]
  have hk0 : (0 : ℤ) ≤ (vts.map fun x => x.2.2).sum :=
    sum_ks_nonneg vts fun x hx => (hvcaps x hx).1
  have hge := gfill_ge vts 1 0 hvcaps hvpair hvV le_rfl hk0
  have hge2 : (vts.map fun x => (x.2.2 : ℚ) * x.1).sum ≤
      gfill ((vts.map fun x => x.2.2).sum) (vts.map fun x => ((x.1, x.2.1) : ℚ × ℤ)) := by
    simpa using hge
  have hlhs1 : (ts.map fun tr => (w : ℚ) * (tr.2.2 : ℚ) * (1 - tr.1 / m)).sum =
      (fts.map fun tr => (w : ℚ) * (tr.2.2 : ℚ) * (1 - tr.1 / m)).sum := by
    rw [hfts]
    exact (sum_filter_of_zero _ _ ts hzerov).symm
  have hlhs2 : (fts.map fun tr => (w : ℚ) * (tr.2.2 : ℚ) * (1 - tr.1 / m)).sum =
      (sorted.map fun tr => (w : ℚ) * (tr.2.2 : ℚ) * (1 - tr.1 / m)).sum :=
    ((hperm.map _).sum_eq).symm
  have hlhs3 : (sorted.map fun tr => (w : ℚ) * (tr.2.2 : ℚ) * (1 - tr.1 / m)) =
      sorted.map fun tr => (w : ℚ) * ((tr.2.2 : ℚ) * (1 - tr.1 / m)) :=
    map_ext_mem _ _ sorted fun x _ => by ring
  have hvsum : (vts.map fun x => (x.2.2 : ℚ) * x.1) =
      sorted.map fun tr => (tr.2.2 : ℚ) * (1 - tr.1 / m) := by
    rw [hvts, List.map_map]
    rfl
  have hpair1 : (vts.map fun x => ((x.1, x.2.1) : ℚ × ℤ)) =
      (sorted.map fun tr => ((tr.1, tr.2.1) : ℚ × ℤ)).map
        (fun dc : ℚ × ℤ => ((1 - dc.1 / m, dc.2) : ℚ × ℤ)) := by
    rw [hvts, List.map_map, List.map_map]
    rfl
  have hpair2 : sorted.map (fun tr : ℚ × ℤ × ℤ => ((tr.1, tr.2.1) : ℚ × ℤ)) =
      (fts.map fun tr => ((tr.1, tr.2.1) : ℚ × ℤ)).mergeSort
        (fun a b : ℚ × ℤ => decide (a.1 ≤ b.1)) := by
    rw [hsorteddef]
    exact List.map_mergeSort (fun a _ b _ => rfl)
  have hpair3 : fts.map (fun tr : ℚ × ℤ × ℤ => ((tr.1, tr.2.1) : ℚ × ℤ)) =
      ts.filterMap fun tr => if 0 < tr.2.1 then some ((tr.1, tr.2.1) : ℚ × ℤ) else none := by
    rw [hfts]
    exact filter_map_eq_filterMap ts
  rw [greedyFill_eq_gfill]
  calc (ts.map fun tr => (w : ℚ) * (tr.2.2 : ℚ) * (1 - tr.1 / m)).sum
      = (w : ℚ) * (vts.map fun x => (x.2.2 : ℚ) * x.1).sum := by
        rw [hlhs1, hlhs2, hlhs3, sum_map_scale, ← hvsum]
    _ ≤ (w : ℚ) * gfill ((vts.map fun x => x.2.2).sum)
          (vts.map fun x => ((x.1, x.2.1) : ℚ × ℤ)) :=
        mul_le_mul_of_nonneg_left hge2 (by exact_mod_cast hw)
    _ = _ := by
        rw [hvks, hpair1, hpair2, hpair3]

end Arrangeit

namespace Arrangeit

/-- An `Extends` relation pairs every group with exactly one added-items
list. -/
theorem extends_len : ∀ {gs : List Group} {exs : List (List Item)} {gs2 : List Group},
    Extends gs exs gs2 → gs.length = exs.length := by
  intro gs exs gs2 h
  induction h with
  | nil => rfl
  | cons _ _ _ _ _ ih => simp only [List.length_cons, ih]

/-- The zipped per-group Nearness increments are the triple view of the
same sum. -/
theorem zip_sum_eq_triples (near : Item → String → Option Point) (tag : String)
    (w : ℤ) (m : ℚ) (prs : List (Group × List Item)) :
    (prs.map fun pr =>
        (w : ℚ) * ((pr.2.countP fun it => (near it tag).isSome : ℕ) : ℚ) *
          (1 - (getGroupDistribution near pr.1 tag).1 / m)).sum =
      ((slotTriples near tag prs).map fun tr => (w : ℚ) * (tr.2.2 : ℚ) * (1 - tr.1 / m)).sum := by
  rw [slotTriples, List.map_map]
  refine congrArg List.sum ?_
  refine map_ext_mem _ _ prs fun pr _ => ?_
  dsimp only [Function.comp]
  push_cast
  ring

/-- Along an `Extends` relation the per-group added point counts sum to
the point count of all added items. -/
theorem extends_triple_ksum (near : Item → String → Option Point) (tag : String) :
    ∀ {gs : List Group} {exs : List (List Item)} {gs2 : List Group},
      Extends gs exs gs2 →
      ((gs.zip exs).map fun pr =>
          ((pr.2.countP fun it => (near it tag).isSome : ℕ) : ℤ)).sum =
        ((exs.flatten.countP fun it => (near it tag).isSome : ℕ) : ℤ) := by
  intro gs exs gs2 h
  induction h with
  | nil => simp
  | cons hname hmin hmax hitems htail ih =>
    simp only [List.zip_cons_cons, List.map_cons, List.sum_cons, List.flatten_cons,
      List.countP_append, ih]
    push_cast
    ring

/-- Every triple's distribution is non-negative. -/
theorem slotTriples_d_nonneg (near : Item → String → Option Point) (tag : String)
    (prs : List (Group × List Item)) : ∀ tr ∈ slotTriples near tag prs, 0 ≤ tr.1 := by
  intro tr htr
  rcases List.mem_map.mp htr with ⟨pr, hpr, he⟩
  rw [← he]
  dsimp only
  rw [getGroupDistribution_eq]
  exact getDistribution_nonneg _

/-- When the extended groups respect their `MaxSize`, every triple's
allocation is non-negative and fits its slot capacity. -/
theorem extends_cap (near : Item → String → Option Point) (tag : String) :
    ∀ {gs : List Group} {exs : List (List Item)} {gs2 : List Group},
      Extends gs exs gs2 →
      (∀ g ∈ gs2, (g.items.length : ℤ) ≤ g.maxSize) →
      ∀ tr ∈ slotTriples near tag (gs.zip exs), 0 ≤ tr.2.2 ∧ tr.2.2 ≤ tr.2.1 := by
  intro gs exs gs2 h
  induction h with
  | nil =>
    intro _ tr htr
    simp [slotTriples] at htr
  | @cons g g2 ex gs exs gs2 hname hmin hmax hitems htail ih =>
    intro hcap tr htr
    rw [slotTriples, List.zip_cons_cons, List.map_cons] at htr
    rcases List.mem_cons.mp htr with he | hr
    · subst he
      have hg2 := hcap g2 (List.mem_cons_self _ _)
      rw [hitems, hmax] at hg2
      have hcp : ex.countP (fun it => (near it tag).isSome) ≤ ex.length :=
        List.countP_le_length _
      simp only [List.length_append] at hg2
      dsimp only
      constructor
      · positivity
      · push_cast at hg2 ⊢
        omega
    · exact ih (fun g hg => hcap g (List.mem_cons_of_mem _ hg)) tr hr

/-- Projecting the positive-slot triples to `(distribution, slots)` pairs
recovers the group-level slot list. -/
theorem slotTriples_proj (near : Item → String → Option Point) (tag : String) :
    ∀ (gs : List Group) (exs : List (List Item)), gs.length = exs.length →
      ((slotTriples near tag (gs.zip exs)).filterMap fun tr =>
        if 0 < tr.2.1 then some ((tr.1, tr.2.1) : ℚ × ℤ) else none) =
      gs.filterMap fun g =>
        if 0 < g.maxSize - (g.items.length : ℤ) then
          some (((getGroupDistribution near g tag).1,
            g.maxSize - (g.items.length : ℤ)) : ℚ × ℤ)
        else none := by
  intro gs
  induction gs with
  | nil =>
    intro exs _
    rfl
  | cons g gs ih =>
    intro exs hlen
    cases exs with
    | nil => simp at hlen
    | cons ex exs =>
      have hlen2 : gs.length = exs.length := by
        simp only [List.length_cons] at hlen
        omega
      simp only [slotTriples, List.zip_cons_cons, List.map_cons, List.filterMap_cons]
      by_cases h : 0 < g.maxSize - (g.items.length : ℤ)
      · simp only [if_pos h]
        rw [← slotTriples, ih exs hlen2]
      · simp only [if_neg h]
        rw [← slotTriples, ih exs hlen2]

/-- The per-rule Nearness bound: for a non-negative-weight Nearness rule,
the rule's score on the completed state is at most its score on the
partial state plus the rule's greedy optimistic bonus. -/
theorem nearness_rule_le (pp : String → Option Point) (items : List Item)
    (near : Item → String → Option Point) (rule : Rule) (s t : State)
    (exs : List (List Item)) (hw : 0 ≤ rule.weight)
    (htype : rule.type = RuleType.Nearness)
    (hext : Extends s.groups exs t.groups)
    (hcap : ∀ g ∈ t.groups, (g.items.length : ℤ) ≤ g.maxSize)
    (hperm : exs.flatten.Perm s.itemsNotInGroups) :
    ruleCurrentScore pp items near t rule ≤
      ruleCurrentScore pp items near s rule + ruleBonus pp items near s rule := by
  have hlen : s.groups.length = exs.length := extends_len hext
  have hm0 : 0 ≤ maxDistributionForTag pp items rule.tagName := getDistribution_nonneg _
  simp only [ruleCurrentScore, ruleBonus, htype]
  rw [if_neg (not_lt.mpr hw)]
  have h1 := nearness_sum_extend_le pp items near rule hw hext
  have h2 := triples_le_bonus rule.weight (maxDistributionForTag pp items rule.tagName)
    hw hm0 (slotTriples near rule.tagName (s.groups.zip exs))
    (slotTriples_d_nonneg near rule.tagName _)
    (extends_cap near rule.tagName hext hcap)
  have hzip := zip_sum_eq_triples near rule.tagName rule.weight
    (maxDistributionForTag pp items rule.tagName) (s.groups.zip exs)
  have hks : ((slotTriples near rule.tagName (s.groups.zip exs)).map fun tr => tr.2.2).sum =
      ((s.itemsNotInGroups.countP fun it => (near it rule.tagName).isSome : ℕ) : ℤ) := by
    have h3 : ((slotTriples near rule.tagName (s.groups.zip exs)).map fun tr => tr.2.2) =
        (s.groups.zip exs).map fun pr =>
          ((pr.2.countP fun it => (near it rule.tagName).isSome : ℕ) : ℤ) := by
      rw [slotTriples, List.map_map]
      rfl
    rw [h3, extends_triple_ksum near rule.tagName hext]
    congr 1
    exact List.Perm.countP_eq _ hperm
  have hfills : ((slotTriples near rule.tagName (s.groups.zip exs)).filterMap fun tr =>
      if 0 < tr.2.1 then some ((tr.1, tr.2.1) : ℚ × ℤ) else none) =
      groupsToFill near s rule.tagName := by
    rw [slotTriples_proj near rule.tagName s.groups exs hlen]
    rfl
  rw [hzip] at h1
  rw [hks, hfills] at h2
  linarith

end Arrangeit

namespace Arrangeit

/-- The per-rule bound under the sign conditions: a non-positive-weight
Sameness rule, any Relationship rule, and a non-negative-weight Nearness
rule each score on the completed state at most their partial-state score
plus their optimistic bonus. -/
theorem ruleScore_extend_le (pp : String → Option Point) (items : List Item)
    (near : Item → String → Option Point) (rule : Rule) (s t : State)
    (exs : List (List Item))
    (hsame : rule.type = RuleType.Sameness → rule.weight ≤ 0)
    (hnear : rule.type = RuleType.Nearness → 0 ≤ rule.weight)
    (hext : Extends s.groups exs t.groups)
    (hcap : ∀ g ∈ t.groups, (g.items.length : ℤ) ≤ g.maxSize)
    (hperm : exs.flatten.Perm s.itemsNotInGroups) :
    ruleCurrentScore pp items near t rule ≤
      ruleCurrentScore pp items near s rule + ruleBonus pp items near s rule := by
  cases htype : rule.type with
  | Sameness =>
    have h1 := sameness_sum_extend_le rule (hsame htype) hext
    have hcur : ruleCurrentScore pp items near t rule ≤
        ruleCurrentScore pp items near s rule := by
      simp only [ruleCurrentScore, htype]
      exact h1
    have hb : 0 ≤ ruleBonus pp items near s rule := by
      simp only [ruleBonus, htype]
      by_cases hwlt : rule.weight < 0
      · rw [if_pos hwlt]
      · rw [if_neg hwlt]
        have h2 : 0 ≤ rule.weight * (s.itemsNotInGroups.length : ℤ) :=
          mul_nonneg (not_lt.mp hwlt) (by positivity)
        exact_mod_cast h2
    linarith
  | Relationship =>
    have hcur : ruleCurrentScore pp items near t rule = 0 := by
      simp [ruleCurrentScore, htype]
    have hcs : ruleCurrentScore pp items near s rule = 0 := by
      simp [ruleCurrentScore, htype]
    have hb : ruleBonus pp items near s rule = 0 := by
      simp [ruleBonus, htype]
    rw [hcur, hcs, hb]
    norm_num
  | Nearness =>
    exact nearness_rule_le pp items near rule s t exs (hnear htype) htype hext hcap hperm

/-- C4 (amended): the heuristic bound holds under the sign conditions
forced by the counterexamples.  If every Sameness rule has non-positive
weight and every Nearness rule has non-negative weight, then for every
state `s` and every feasible terminal state `t` obtained from `s` by
placing all of `s`'s unplaced items into groups without exceeding any
group's `MaxSize`, `CalculateScore t ≤ CalculateMaxPotentialScore s`. -/
theorem c4_heuristic_bound_signed (pp : String → Option Point) (items : List Item)
    (near : Item → String → Option Point) (rules : List Rule) (s t : State) (q q2 : ℚ)
    (hsign : ∀ r ∈ rules, (r.type = RuleType.Sameness → r.weight ≤ 0) ∧
      (r.type = RuleType.Nearness → 0 ≤ r.weight))
    (hplace : PlacedInto s t)
    (hcap : ∀ g ∈ t.groups, (g.items.length : ℤ) ≤ g.maxSize)
    (hfeas : meetsMinSizes t.groups = true)
    (hpot : CalculateMaxPotentialScore pp items near rules s = some q)
    (hsc : CalculateScore pp items near rules t = some q2) :
    q2 ≤ q := by
  rcases hplace with ⟨exs, hext, hperm, hempty⟩
  have hterm : t.IsTerminal = true := by
    simp [State.IsTerminal, hempty]
  rw [CalculateScore, hterm, hfeas] at hsc
  simp only [Bool.not_true, Bool.false_eq_true, if_false] at hsc
  rw [CalculateCurrentScore] at hsc
  by_cases hrel : hasLiveRelationship rules = true
  · rw [if_pos hrel] at hsc
    exact absurd hsc (by simp)
  · rw [if_neg hrel] at hsc
    rw [CalculateMaxPotentialScore, if_neg hrel] at hpot
    have hq2 : q2 = ((rules.filter fun r => !decide (r.weight = 0)).map
        (ruleCurrentScore pp items near t)).sum := (Option.some.inj hsc).symm
    have hq : q = ((rules.filter fun r => !decide (r.weight = 0)).map
        (ruleCurrentScore pp items near s)).sum +
        ((rules.filter fun r => !decide (r.weight = 0)).map
          (ruleBonus pp items near s)).sum := (Option.some.inj hpot).symm
    have hmain := sum_le_sum_add (ruleCurrentScore pp items near t)
      (ruleCurrentScore pp items near s) (ruleBonus pp items near s)
      (rules.filter fun r => !decide (r.weight = 0)) ?_
    · rw [hq2, hq]
      exact hmain
    · intro r hr
      have hrr : r ∈ rules := List.mem_of_mem_filter hr
      exact ruleScore_extend_le pp items near r s t exs (hsign r hrr).1 (hsign r hrr).2
        hext hcap hperm

/-- Witness for the amended C4 bound: a negative-weight Sameness rule, one
item placed and one unplaced; the potential is `-1`, the feasible
completion scores `-4 ≤ -1`. -/
theorem c4_heuristic_bound_signed_witness :
    (∀ r ∈ ([⟨"t", RuleType.Sameness, -1⟩] : List Rule),
        (r.type = RuleType.Sameness → r.weight ≤ 0) ∧
          (r.type = RuleType.Nearness → 0 ≤ r.weight)) ∧
      PlacedInto ⟨[⟨"G1", 0, 2, [itTagA]⟩], [itTagB], 0⟩
        ⟨[⟨"G1", 0, 2, [itTagA, itTagB]⟩], [], 0⟩ ∧
      (∀ g ∈ ([⟨"G1", 0, 2, [itTagA, itTagB]⟩] : List Group),
        (g.items.length : ℤ) ≤ g.maxSize) ∧
      meetsMinSizes [⟨"G1", 0, 2, [itTagA, itTagB]⟩] = true ∧
      CalculateMaxPotentialScore ppNone [itTagA, itTagB] (fun _ _ => none)
        [⟨"t", RuleType.Sameness, -1⟩]
        ⟨[⟨"G1", 0, 2, [itTagA]⟩], [itTagB], 0⟩ = some (-1) ∧
      CalculateScore ppNone [itTagA, itTagB] (fun _ _ => none)
        [⟨"t", RuleType.Sameness, -1⟩]
        ⟨[⟨"G1", 0, 2, [itTagA, itTagB]⟩], [], 0⟩ = some (-4) ∧
      (-4 : ℚ) ≤ -1 :=
  ⟨by decide,
    ⟨[[itTagB]], Extends.cons rfl rfl rfl rfl Extends.nil, List.Perm.refl _, rfl⟩,
    by decide, by decide, by decide, by decide,
    c4_heuristic_bound_signed ppNone [itTagA, itTagB] (fun _ _ => none)
      [⟨"t", RuleType.Sameness, -1⟩] ⟨[⟨"G1", 0, 2, [itTagA]⟩], [itTagB], 0⟩
      ⟨[⟨"G1", 0, 2, [itTagA, itTagB]⟩], [], 0⟩ (-1) (-4)
      (by decide)
      ⟨[[itTagB]], Extends.cons rfl rfl rfl rfl Extends.nil, List.Perm.refl _, rfl⟩
      (by decide) (by decide) (by decide) (by decide)⟩

end Arrangeit
